import Mathlib

/-!
Verification development for the open-warden VCS core: a shallow embedding of
the diff parser (`src/crates/core/src/diff/mod.rs`), the jj unified-diff
formatter (`src/crates/core/src/vcs/jj.rs`), the git backend's reference
handling and changed-file listings (`src/src/vcs/git.rs`), and the shared
snapshot / path-validation helpers (`src/crates/core/src/vcs/mod.rs`).

Strings are modelled as `List Char` (the byte/char sequence of a Rust `&str`;
all inputs of interest are valid UTF-8).  The `u32` line counters of the
parser use wrap-around arithmetic modulo 2^32, matching release-profile Rust
semantics.
-/

namespace OW

/-- A Rust `&str` / `String`, modelled as its character list. -/
abbrev Chars := List Char

/-- Split a character list at every `\n` (Rust `str::split('\n')`: always at
least one segment). -/
def splitNl : List Char → List (List Char)
  | [] => [[]]
  | c :: cs =>
    if c = '\n' then [] :: splitNl cs
    else
      match splitNl cs with
      | [] => [[c]]
      | l :: ls => (c :: l) :: ls

/-- Strip one trailing `\r` (applied by Rust `str::lines()` to every
`\n`-terminated line). -/
def stripCR (l : List Char) : List Char :=
  if l.getLast? = some '\r' then l.dropLast else l

/-- Rust `str::lines()`: split at `\n` terminators, strip a `\r` preceding
each terminator, and do not yield a final empty segment for a trailing
terminator (an unterminated final line keeps any trailing `\r`). -/
def rustLinesCore (cs : List Char) : List (List Char) :=
  let segs := splitNl cs
  let last := segs.getLast?.getD []
  segs.dropLast.map stripCR ++ (if last = [] then [] else [last])

/-- Rust `str::trim()`: drop whitespace from both ends. -/
def trimChars (cs : Chars) : Chars :=
  ((cs.dropWhile Char.isWhitespace).reverse.dropWhile Char.isWhitespace).reverse

/-- Rust `str::trim()` on a `String` model. -/
def trimStr (s : String) : String := ⟨trimChars s.data⟩

/-- Helper for `splitWs`: accumulate the current word (reversed) while
scanning. -/
def splitWsAux : List Char → List Char → List (List Char)
  | [], acc => if acc.isEmpty then [] else [acc.reverse]
  | c :: cs, acc =>
    if c.isWhitespace then
      if acc.isEmpty then splitWsAux cs [] else acc.reverse :: splitWsAux cs []
    else splitWsAux cs (c :: acc)

/-- Rust `str::split_whitespace().collect()`. -/
def splitWs (cs : Chars) : List (List Char) := splitWsAux cs []

/-- Does `pat` occur as a contiguous sub-list of the input? (Rust
`str::contains` for a string pattern.) -/
def listContainsSub (pat : Chars) : Chars → Bool
  | [] => pat.isPrefixOf []
  | c :: cs => pat.isPrefixOf (c :: cs) || listContainsSub pat cs

/-- Helper for `splitOnSub`: split at each leftmost non-overlapping
occurrence of `pat`, carrying the current segment reversed in `acc`.  The
fuel argument (initially the input length) makes the recursion structural;
it never runs out because every step consumes at least one character. -/
def splitOnSubAux (pat : Chars) : Nat → Chars → Chars → List Chars
  | 0, xs, acc => [acc.reverse ++ xs]
  | _ + 1, [], acc => [acc.reverse]
  | fuel + 1, c :: cs, acc =>
    if pat.isPrefixOf (c :: cs) then
      acc.reverse :: splitOnSubAux pat fuel (List.drop (pat.length - 1) cs) []
    else splitOnSubAux pat fuel cs (c :: acc)

/-- Rust `str::split(pat).collect()` for a non-empty string pattern. -/
def splitOnSub (pat cs : Chars) : List Chars :=
  splitOnSubAux pat cs.length cs []

/-- Rust `str::contains` on the `String` model. -/
def strContains (s pat : String) : Bool := listContainsSub pat.data s.data

/-- Rust `str::split(pat).collect()` on the `String` model. -/
def strSplit (s pat : String) : List String :=
  (splitOnSub pat.data s.data).map (fun cs => ⟨cs⟩)

/-- Rust `str::parse::<u32>()` restricted to the digit forms that can appear
here: an optional `+` sign followed by decimal digits, value below `2^32`. -/
def parseU32? (cs : Chars) : Option Nat :=
  let cs := match cs with
    | '+' :: rest => rest
    | other => other
  if cs = [] then none
  else if cs.all Char.isDigit then
    let v := cs.foldl (fun acc c => acc * 10 + (c.toNat - '0'.toNat)) 0
    if v < 4294967296 then some v else none
  else none

/-- The character for one decimal digit. -/
def digitChar (d : Nat) : Char :=
  if d = 0 then '0' else if d = 1 then '1' else if d = 2 then '2'
  else if d = 3 then '3' else if d = 4 then '4' else if d = 5 then '5'
  else if d = 6 then '6' else if d = 7 then '7' else if d = 8 then '8'
  else '9'

/-- Helper for `natDigits`, structural in its fuel (initially `n`, which
always suffices since `n / 10 < n` for `n ≥ 10`). -/
def natDigitsAux : Nat → Nat → List Char
  | 0, n => [digitChar (n % 10)]
  | fuel + 1, n =>
    if n < 10 then [digitChar n]
    else natDigitsAux fuel (n / 10) ++ [digitChar (n % 10)]

/-- Decimal digits of a natural number (Rust's `{}` formatting for the hunk
header fields). -/
def natDigits (n : Nat) : List Char := natDigitsAux n n

/-! ## Diff model and parser (`src/crates/core/src/diff/mod.rs`) -/

/-- `LineKind` from `diff/mod.rs`. -/
inductive LineKind
  | context
  | added
  | removed
deriving DecidableEq, Repr

/-- `Line` from `diff/mod.rs`: a single diff row. -/
structure Line where
  kind : LineKind
  content : Chars
  oldLineNum : Option Nat
  newLineNum : Option Nat
deriving DecidableEq, Repr

/-- `Line::context`. -/
def Line.contextRow (content : Chars) (old new : Nat) : Line :=
  ⟨.context, content, some old, some new⟩

/-- `Line::added`. -/
def Line.addedRow (content : Chars) (new : Nat) : Line :=
  ⟨.added, content, none, some new⟩

/-- `Line::removed`. -/
def Line.removedRow (content : Chars) (old : Nat) : Line :=
  ⟨.removed, content, some old, none⟩

/-- `Hunk` from `diff/mod.rs`. -/
structure Hunk where
  oldStart : Nat
  newStart : Nat
  lines : List Line
deriving DecidableEq, Repr

/-- `FileDiff` from `diff/mod.rs`. -/
structure FileDiff where
  path : Chars
  hunks : List Hunk
deriving DecidableEq, Repr

/-- `Diff` from `diff/mod.rs`. -/
structure Diff where
  files : List FileDiff
deriving DecidableEq, Repr

/-- The mutable locals of `Diff::parse`. -/
structure ParseState where
  files : List FileDiff
  currentFile : Option FileDiff
  currentHunk : Option Hunk
  oldLine : Nat
  newLine : Nat
deriving DecidableEq, Repr

/-- Initial state of `Diff::parse`. -/
def ParseState.init : ParseState := ⟨[], none, none, 0, 0⟩

/-- The `u32` wrap-around increment used by the parser's line counters. -/
def wrap32succ (n : Nat) : Nat := (n + 1) % 4294967296

/-- One iteration of the `for line in diff_str.lines()` loop of
`Diff::parse`. -/
def parseStep (st : ParseState) (line : Chars) : ParseState :=
  if "diff --git".data.isPrefixOf line then
    let (files, currentHunk) :=
      match st.currentFile with
      | some file =>
        let file :=
          match st.currentHunk with
          | some h => { file with hunks := file.hunks ++ [h] }
          | none => file
        (st.files ++ [file], (none : Option Hunk))
      | none => (st.files, st.currentHunk)
    let currentFile := ((splitOnSub " b/".data line).get? 1).map fun p =>
      FileDiff.mk p []
    { st with files := files, currentFile := currentFile,
              currentHunk := currentHunk }
  else if "@@".data.isPrefixOf line then
    let (currentFile, currentHunk) :=
      match st.currentFile, st.currentHunk with
      | some file, some h =>
        (some { file with hunks := file.hunks ++ [h] }, (none : Option Hunk))
      | some file, none => (some file, none)
      | none, h => (none, h)
    let parts := splitWs line
    if parts.length ≥ 3 then
      let oldPart := ((parts.get? 1).getD []).dropWhile (· = '-')
      let newPart := ((parts.get? 2).getD []).dropWhile (· = '+')
      let oldLine := (parseU32? (oldPart.takeWhile (· ≠ ','))).getD 1
      let newLine := (parseU32? (newPart.takeWhile (· ≠ ','))).getD 1
      { st with currentFile := currentFile,
                currentHunk := some ⟨oldLine, newLine, []⟩,
                oldLine := oldLine, newLine := newLine }
    else
      { st with currentFile := currentFile, currentHunk := currentHunk }
  else
    match st.currentHunk with
    | none => st
    | some hunk =>
      if line.head? = some '+' ∧ ¬ "+++".data.isPrefixOf line then
        { st with
            currentHunk :=
              some { hunk with
                lines := hunk.lines ++ [Line.addedRow line.tail st.newLine] },
            newLine := wrap32succ st.newLine }
      else if line.head? = some '-' ∧ ¬ "---".data.isPrefixOf line then
        { st with
            currentHunk :=
              some { hunk with
                lines := hunk.lines ++ [Line.removedRow line.tail st.oldLine] },
            oldLine := wrap32succ st.oldLine }
      else if line.head? = some ' ' ∨ line = [] then
        let content := if line = [] then [] else line.tail
        { st with
            currentHunk :=
              some { hunk with
                lines := hunk.lines ++
                  [Line.contextRow content st.oldLine st.newLine] },
            oldLine := wrap32succ st.oldLine,
            newLine := wrap32succ st.newLine }
      else st

/-- The "save last file" epilogue of `Diff::parse`. -/
def parseFinish (st : ParseState) : Diff :=
  match st.currentFile with
  | some file =>
    let file :=
      match st.currentHunk with
      | some h => { file with hunks := file.hunks ++ [h] }
      | none => file
    ⟨st.files ++ [file]⟩
  | none => ⟨st.files⟩

/-- `Diff::parse` on a pre-split list of input lines. -/
def parseLines (lines : List Chars) : Diff :=
  parseFinish (lines.foldl parseStep ParseState.init)

/-- `Diff::parse`. -/
def Diff.parse (s : String) : Diff := parseLines (rustLinesCore s.data)

/-! ## Shared error taxonomy and path exclusion -/

/-- `VcsError` from `vcs/backend.rs` (message payloads kept as strings). -/
inductive VcsError
  | NotARepository
  | InvalidRef (msg : String)
  | FileNotFound (path : String)
  | Io
  | Other (msg : String)
deriving DecidableEq, Repr

/-- `EXCLUDED_FILES` (identical in `git.rs` and `jj.rs`). -/
def EXCLUDED_FILES : List String :=
  ["package-lock.json", "yarn.lock", "pnpm-lock.yaml", "Cargo.lock"]

/-- `EXCLUDED_PATTERNS` (identical in `git.rs` and `jj.rs`). -/
def EXCLUDED_PATTERNS : List String := ["node_modules/"]

/-- `path.rsplit('/').next()`: the basename segment after the last slash. -/
def rsplitNext (path : Chars) : Chars :=
  ((splitOnSub ['/'] path).getLast?).getD []

/-- `should_exclude_path` (identical in `git.rs` and `jj.rs`). -/
def should_exclude_path (path : String) : Bool :=
  (EXCLUDED_FILES.contains ⟨rsplitNext path.data⟩) ||
    EXCLUDED_PATTERNS.any (fun pat => strContains path pat)

/-! ## Status classification and snapshot (`vcs/mod.rs`) -/

/-- The `git2::Status` flag set of one status entry, as individual bits. -/
structure StatusFlags where
  indexNew : Bool := false
  indexModified : Bool := false
  indexDeleted : Bool := false
  indexRenamed : Bool := false
  indexTypechange : Bool := false
  wtNew : Bool := false
  wtModified : Bool := false
  wtDeleted : Bool := false
  wtRenamed : Bool := false
  wtTypechange : Bool := false
  conflicted : Bool := false
deriving DecidableEq, Repr

/-- `has_index_changes`. -/
def has_index_changes (s : StatusFlags) : Bool :=
  s.indexNew || s.indexModified || s.indexDeleted || s.indexRenamed ||
    s.indexTypechange

/-- `has_worktree_changes`. -/
def has_worktree_changes (s : StatusFlags) : Bool :=
  s.wtModified || s.wtDeleted || s.wtRenamed || s.wtTypechange

/-- `status_label`: the first-match-wins label chain of `vcs/mod.rs`. -/
def status_label (s : StatusFlags) : String :=
  if s.conflicted then "unmerged"
  else if s.indexNew || s.wtNew then "added"
  else if s.indexDeleted || s.wtDeleted then "deleted"
  else if s.indexRenamed || s.wtRenamed then "renamed"
  else if s.indexTypechange || s.wtTypechange then "type-changed"
  else "modified"

/-- `SnapshotFile` from `vcs/backend.rs`. -/
structure SnapshotFile where
  path : String
  status : String
deriving DecidableEq, Repr

/-- `GitSnapshot` from `vcs/backend.rs` (the three bucket lists; the
`repo_root`/`branch` fields are orthogonal to the bucket logic and passed
through unchanged). -/
structure GitSnapshot where
  repoRoot : String
  branch : String
  unstaged : List SnapshotFile
  staged : List SnapshotFile
  untracked : List SnapshotFile
deriving DecidableEq, Repr

/-- Bucket assignment for one status entry: the body of the
`for entry in statuses.iter()` loop of `get_git_snapshot_for_path`. -/
def snapshotStep (acc : List SnapshotFile × List SnapshotFile × List SnapshotFile)
    (entry : String × StatusFlags) :
    List SnapshotFile × List SnapshotFile × List SnapshotFile :=
  let (unstaged, staged, untracked) := acc
  let (path, status) := entry
  if status.wtNew ∧ ¬ has_index_changes status then
    (unstaged, staged, untracked ++ [⟨path, "untracked"⟩])
  else
    let staged :=
      if has_index_changes status ∨ status.conflicted then
        staged ++ [⟨path, status_label status⟩]
      else staged
    let unstaged :=
      if has_worktree_changes status ∨ status.conflicted then
        unstaged ++ [⟨path, status_label status⟩]
      else unstaged
    (unstaged, staged, untracked)

/-- The path-ascending comparison used by the three `sort_by` calls. -/
def byPath (a b : SnapshotFile) : Prop := a.path ≤ b.path

instance : DecidableRel byPath := fun a b => by
  unfold byPath; infer_instance

/-- `get_git_snapshot_for_path`, given the repository's status-entry list
(as produced by `repo.statuses`) and the resolved root/branch strings. -/
def get_git_snapshot (repoRoot branch : String)
    (entries : List (String × StatusFlags)) : GitSnapshot :=
  let (unstaged, staged, untracked) := entries.foldl snapshotStep ([], [], [])
  { repoRoot := repoRoot
    branch := branch
    unstaged := unstaged.insertionSort byPath
    staged := staged.insertionSort byPath
    untracked := untracked.insertionSort byPath }

/-! ## Repository-relative path validation (`vcs/mod.rs`) -/

/-- The normalized components of a Unix path, as produced by Rust's
`Path::components()`: slash-separated segments with empty and `.` segments
dropped. -/
def pathComponents (s : String) : List String :=
  ((splitOnSub ['/'] s.data).map (fun cs => (⟨cs⟩ : String))).filter
    (fun c => c ≠ "" ∧ c ≠ ".")

/-- `validate_repo_relative_path`. -/
def validate_repo_relative_path (relPath : String) : Except VcsError Unit :=
  if relPath = "" then .error (.Other "path is empty")
  else if relPath.data.head? = some '/' then
    .error (.Other "path must be repository-relative")
  else if (pathComponents relPath).contains ".." then
    .error (.Other "path cannot contain '..'")
  else .ok ()

/-- `DiffBucket` from `vcs/backend.rs`. -/
inductive DiffBucket
  | unstaged
  | staged
  | untracked
deriving DecidableEq, Repr

/-- `stage_file_for_path`: validate, then run the backend mutation (the
`GitBackend::new` + `stage_file` continuation, abstracted as a state
transformer on the repository state `σ`). -/
def stage_file_for_path {σ : Type} (action : σ → σ × Except VcsError Unit)
    (st : σ) (relPath : String) : σ × Except VcsError Unit :=
  match validate_repo_relative_path relPath with
  | .error e => (st, .error e)
  | .ok _ => action st

/-- `unstage_file_for_path`: validate, then run the backend mutation. -/
def unstage_file_for_path {σ : Type} (action : σ → σ × Except VcsError Unit)
    (st : σ) (relPath : String) : σ × Except VcsError Unit :=
  match validate_repo_relative_path relPath with
  | .error e => (st, .error e)
  | .ok _ => action st

/-- `discard_file_for_path`: validate, then run the bucket-specific
discard logic. -/
def discard_file_for_path {σ : Type}
    (action : DiffBucket → σ → σ × Except VcsError Unit)
    (st : σ) (relPath : String) (bucket : DiffBucket) :
    σ × Except VcsError Unit :=
  match validate_repo_relative_path relPath with
  | .error e => (st, .error e)
  | .ok _ => action bucket st

/-- `FileVersions` content pair (old/new file text), abstracted. -/
structure FileVersions where
  oldFile : Option String
  newFile : Option String
deriving DecidableEq, Repr

/-- `get_file_versions_for_path`: validate, then read the two blob versions
for the requested bucket. -/
def get_file_versions_for_path {σ : Type}
    (action : DiffBucket → σ → σ × Except VcsError FileVersions)
    (st : σ) (relPath : String) (bucket : DiffBucket) :
    σ × Except VcsError FileVersions :=
  match validate_repo_relative_path relPath with
  | .error e => (st, .error e)
  | .ok _ => action bucket st

/-- `get_commit_file_versions_for_path`: validate the path (and the previous
path when present), then read the commit's two blob versions. -/
def get_commit_file_versions_for_path {σ : Type}
    (action : σ → σ × Except VcsError FileVersions)
    (st : σ) (relPath : String) (previousRelPath : Option String) :
    σ × Except VcsError FileVersions :=
  match validate_repo_relative_path relPath with
  | .error e => (st, .error e)
  | .ok _ =>
    match previousRelPath with
    | some p =>
      match validate_repo_relative_path p with
      | .error e => (st, .error e)
      | .ok _ => action st
    | none => action st

/-! ## Git backend (`src/src/vcs/git.rs`)

Native `git2` calls are abstracted as an oracle; every model records the
list of references handed to `revparse_single`, so that "rejected before any
native call" is expressible as an empty call trace. -/

/-- `GitBackend::validate_ref_format`. -/
def validate_ref_format (reference : String) : Except VcsError Unit :=
  if (trimChars reference.data).head? = some '-' then
    .error (.InvalidRef ("references cannot start with '-': " ++ reference))
  else .ok ()

/-- One `git2` diff delta: the `new_file()`/`old_file()` path pair (a `none`
path also covers a non-UTF-8 path whose `to_str()` fails). -/
structure GitDelta where
  newPath : Option String
  oldPath : Option String
deriving DecidableEq, Repr

/-- A resolved `git2` commit as the backend consumes it. -/
structure GitCommitRec where
  id : String
  summary : String
  time : Nat
  parentCount : Nat
  deltasVsParent : List GitDelta
deriving DecidableEq, Repr

/-- The native `git2` facilities used by the modelled git-backend
operations. -/
structure GitOracle where
  revparse : String → Option GitCommitRec
  rangeDeltas : String → String → List GitDelta
  revwalk : String → String → List String
  findCommit : String → Option GitCommitRec

/-- `GitBackend::get_changed_files`, returning the result together with the
trace of references passed to `revparse_single`. -/
def gitGetChangedFiles (o : GitOracle) (reference : String) :
    Except VcsError (List String) × List String :=
  let reference := trimStr reference
  let single : Except VcsError (List String) × List String :=
    match validate_ref_format reference with
    | .error e => (.error e, [])
    | .ok _ =>
      match o.revparse reference with
      | none => (.error (.InvalidRef reference), [reference])
      | some commit =>
        (.ok (commit.deltasVsParent.filterMap (·.newPath)), [reference])
  if strContains reference ".." then
    let parts :=
      if strContains reference "..." then strSplit reference "..."
      else strSplit reference ".."
    if parts.length = 2 then
      let p0 := parts.headD ""
      let p1 := (parts.get? 1).getD ""
      match validate_ref_format p0 with
      | .error e => (.error e, [])
      | .ok _ =>
        match validate_ref_format p1 with
        | .error e => (.error e, [])
        | .ok _ =>
          match o.revparse p0 with
          | none => (.error (.InvalidRef p0), [p0])
          | some fromCommit =>
            match o.revparse p1 with
            | none => (.error (.InvalidRef p1), [p0, p1])
            | some toCommit =>
              (.ok ((o.rangeDeltas fromCommit.id toCommit.id).filterMap
                  (·.newPath)),
                [p0, p1])
    else single
  else single

/-- `GitBackend::get_range_changed_files` with its `revparse` trace. -/
def gitGetRangeChangedFiles (o : GitOracle) (fromRef toRef : String) :
    Except VcsError (List String) × List String :=
  let fromRef := trimStr fromRef
  let toRef := trimStr toRef
  match validate_ref_format fromRef with
  | .error e => (.error e, [])
  | .ok _ =>
    match validate_ref_format toRef with
    | .error e => (.error e, [])
    | .ok _ =>
      match o.revparse fromRef with
      | none => (.error (.InvalidRef fromRef), [fromRef])
      | some fromCommit =>
        match o.revparse toRef with
        | none => (.error (.InvalidRef toRef), [fromRef, toRef])
        | some toCommit =>
          (.ok ((o.rangeDeltas fromCommit.id toCommit.id).filterMap
              (·.newPath)),
            [fromRef, toRef])

/-- `GitBackend::get_commit` up to and including reference resolution (the
rest of the body formats the resolved commit and its diff). -/
def gitGetCommitResolve (o : GitOracle) (reference : String) :
    Except VcsError GitCommitRec × List String :=
  let reference := trimStr reference
  match validate_ref_format reference with
  | .error e => (.error e, [])
  | .ok _ =>
    match o.revparse reference with
    | none => (.error (.InvalidRef reference), [reference])
    | some commit => (.ok commit, [reference])

/-- `GitBackend::resolve_ref`. -/
def gitResolveRef (o : GitOracle) (reference : String) :
    Except VcsError String × List String :=
  let reference := trimStr reference
  match validate_ref_format reference with
  | .error e => (.error e, [])
  | .ok _ =>
    match o.revparse reference with
    | none => (.error (.InvalidRef reference), [reference])
    | some commit => (.ok commit.id, [reference])

/-- `GitBackend::get_range_diff` up to and including reference resolution
(`from`/`to` are not pre-trimmed in the source). -/
def gitGetRangeDiffResolve (o : GitOracle) (fromRef toRef : String) :
    Except VcsError (GitCommitRec × GitCommitRec) × List String :=
  match validate_ref_format fromRef with
  | .error e => (.error e, [])
  | .ok _ =>
    match validate_ref_format toRef with
    | .error e => (.error e, [])
    | .ok _ =>
      match o.revparse fromRef with
      | none => (.error (.InvalidRef fromRef), [fromRef])
      | some fromCommit =>
        match o.revparse toRef with
        | none => (.error (.InvalidRef toRef), [fromRef, toRef])
        | some toCommit => (.ok (fromCommit, toCommit), [fromRef, toRef])

/-- `GitBackend::get_merge_base` up to and including reference resolution. -/
def gitGetMergeBaseResolve (o : GitOracle) (ref1 ref2 : String) :
    Except VcsError (GitCommitRec × GitCommitRec) × List String :=
  let ref1 := trimStr ref1
  let ref2 := trimStr ref2
  match validate_ref_format ref1 with
  | .error e => (.error e, [])
  | .ok _ =>
    match validate_ref_format ref2 with
    | .error e => (.error e, [])
    | .ok _ =>
      match o.revparse ref1 with
      | none => (.error (.InvalidRef ref1), [ref1])
      | some c1 =>
        match o.revparse ref2 with
        | none => (.error (.InvalidRef ref2), [ref1, ref2])
        | some c2 => (.ok (c1, c2), [ref1, ref2])

/-- `GitBackend::get_parent_ref_or_empty`. -/
def gitGetParentRefOrEmpty (o : GitOracle) (reference : String) :
    Except VcsError String × List String :=
  let reference := trimStr reference
  match validate_ref_format reference with
  | .error e => (.error e, [])
  | .ok _ =>
    match o.revparse reference with
    | none => (.error (.InvalidRef reference), [reference])
    | some commit =>
      if commit.parentCount > 0 then (.ok (reference ++ "^"), [reference])
      else (.ok "4b825dc642cb6eb9a060e54bf8d69288fbee4904", [reference])

/-- `StackedCommitInfo` from `vcs/backend.rs`. -/
structure StackedCommitInfo where
  commitId : String
  shortId : String
  changeId : Option String
  summary : String
deriving DecidableEq, Repr

/-- The revwalk loop of `GitBackend::get_commits_in_range`: keep a commit
exactly when its own `get_changed_files` result is non-empty. -/
def gitCommitsLoop (o : GitOracle) :
    List String → Except VcsError (List StackedCommitInfo)
  | [] => .ok []
  | oid :: rest =>
    match o.findCommit oid with
    | none => .error (.Other ("failed to find commit: " ++ oid))
    | some commit =>
      match gitCommitsLoop o rest with
      | .error e => .error e
      | .ok tail =>
        let keep : Bool :=
          match (gitGetChangedFiles o oid).1 with
          | .ok fs => ! fs.isEmpty
          | .error _ => false
        if keep then
          .ok (⟨oid, ⟨oid.data.take 7⟩, none, commit.summary⟩ :: tail)
        else .ok tail

/-- `GitBackend::get_commits_in_range`: resolve both ends, walk
`to`-reachable minus `from`-reachable (oracle-provided, newest first),
filter by non-empty changed files, reverse to oldest-first. -/
def gitGetCommitsInRange (o : GitOracle) (fromRef toRef : String) :
    Except VcsError (List StackedCommitInfo) × List String :=
  let fromRef := trimStr fromRef
  let toRef := trimStr toRef
  match validate_ref_format fromRef with
  | .error e => (.error e, [])
  | .ok _ =>
    match validate_ref_format toRef with
    | .error e => (.error e, [])
    | .ok _ =>
      match o.revparse fromRef with
      | none => (.error (.InvalidRef fromRef), [fromRef])
      | some fromCommit =>
        match o.revparse toRef with
        | none => (.error (.InvalidRef toRef), [fromRef, toRef])
        | some toCommit =>
          match gitCommitsLoop o (o.revwalk toCommit.id fromCommit.id) with
          | .error e => (.error e, [fromRef, toRef])
          | .ok commits => (.ok commits.reverse, [fromRef, toRef])

/-- One line handed to the `diff.print(DiffFormat::Patch, ...)` callback:
the delta's paths, the line origin character, and its content. -/
structure GitDiffLine where
  newPath : Option String
  oldPath : Option String
  origin : Char
  content : String
deriving DecidableEq, Repr

/-- Is this print-callback line part of an excluded delta? -/
def gitLineExcluded (l : GitDiffLine) : Bool :=
  (match l.newPath with
   | some p => should_exclude_path p
   | none => false) ||
  (match l.oldPath with
   | some p => should_exclude_path p
   | none => false)

/-- The `diff.print` callback of `generate_commit_diff` /
`get_working_tree_diff` / `get_range_diff`: skip lines of excluded deltas,
emit the origin character for `+`/`-`/space lines, then the content. -/
def gitDiffPrintStep (out : String) (l : GitDiffLine) : String :=
  if gitLineExcluded l then out
  else
    let out :=
      if l.origin = '+' ∨ l.origin = '-' ∨ l.origin = ' ' then
        out.push l.origin
      else out
    out ++ l.content

/-- The accumulated patch text produced by the `diff.print` callback. -/
def gitDiffPrintOutput (lines : List GitDiffLine) : String :=
  lines.foldl gitDiffPrintStep ""

/-! ## Jj backend reference handling and listings
(`src/crates/core/src/vcs/jj.rs`)

The `jj_lib` revset machinery is abstracted as an oracle; the trace records
every string handed to `jj_lib::revset::parse`. -/

/-- `detect_git_syntax`. -/
def detect_git_syntax (refStr : String) : Option String :=
  let s := trimStr refStr
  if s = "HEAD" then some "@-"
  else
    let rest :=
      match s.data with
      | 'H' :: 'E' :: 'A' :: 'D' :: '~' :: rest => some rest
      | 'H' :: 'E' :: 'A' :: 'D' :: '^' :: rest => some rest
      | _ => none
    match rest with
    | some restChars =>
      match parseU32? restChars with
      | some n => some ⟨'@' :: List.replicate (n + 1) '-'⟩
      | none => if s = "HEAD~" ∨ s = "HEAD^" then some "@--" else none
    | none => if s = "HEAD~" ∨ s = "HEAD^" then some "@--" else none

/-- `format_ref_error`. -/
def format_ref_error (refStr baseError : String) : VcsError :=
  match detect_git_syntax refStr with
  | some suggestion =>
    .Other ("'" ++ refStr ++ "' is git syntax, use '" ++ suggestion ++
      "' instead")
  | none => .InvalidRef baseError

/-- A resolved jj commit as the backend consumes it: ids, description,
commit time, and the tree-diff entry paths against its first parent. -/
structure JjCommitRec where
  id : String
  changeId : String
  summary : String
  time : Nat
  entriesVsParent : List String
deriving DecidableEq, Repr

/-- The `jj_lib` facilities used by the modelled jj-backend operations.
`parse` is `jj_lib::revset::parse`; `resolveEval` is
`resolve_user_expression` + `evaluate` + first-iterator-element +
`store().get_commit`, yielding `none` when the revset evaluates to nothing;
`rangeWalk` is the evaluated id walk of a range revset (newest first);
`rangeEntries` the tree-diff entry paths between two resolved commits. -/
structure JjOracle where
  parse : String → Except String Unit
  resolveEval : String → Option JjCommitRec
  rangeWalk : String → List String
  rangeEntries : String → String → List String

/-- `JjBackend::resolve_single_commit`, returning the result together with
the trace of strings handed to `jj_lib::revset::parse`.  The parse is the
first thing the function does: there is no pre-validation of the reference
string. -/
def jjResolveSingleCommit (o : JjOracle) (revsetStr : String) :
    Except VcsError JjCommitRec × List String :=
  (match o.parse revsetStr with
   | .error e => .error (format_ref_error revsetStr ("parse error: " ++ e))
   | .ok _ =>
     match o.resolveEval revsetStr with
     | none =>
       .error (format_ref_error revsetStr
         ("revision '" ++ revsetStr ++ "' not found"))
     | some commit => .ok commit,
   [revsetStr])

/-- `JjBackend::get_commit` up to and including reference resolution. -/
def jjGetCommitResolve (o : JjOracle) (reference : String) :
    Except VcsError JjCommitRec × List String :=
  jjResolveSingleCommit o (trimStr reference)

/-- `JjBackend::get_changed_files`: resolve, walk the tree diff against the
first parent, and keep only non-excluded paths. -/
def jjGetChangedFiles (o : JjOracle) (reference : String) :
    Except VcsError (List String) × List String :=
  match jjResolveSingleCommit o reference with
  | (.error e, tr) => (.error e, tr)
  | (.ok commit, tr) =>
    (.ok (commit.entriesVsParent.filter (fun p => ! should_exclude_path p)),
      tr)

/-- `JjBackend::get_range_changed_files`. -/
def jjGetRangeChangedFiles (o : JjOracle) (fromRef toRef : String) :
    Except VcsError (List String) × List String :=
  match jjResolveSingleCommit o fromRef with
  | (.error e, tr) => (.error e, tr)
  | (.ok fromCommit, tr1) =>
    match jjResolveSingleCommit o toRef with
    | (.error e, tr2) => (.error e, tr1 ++ tr2)
    | (.ok toCommit, tr2) =>
      (.ok ((o.rangeEntries fromCommit.id toCommit.id).filter
          (fun p => ! should_exclude_path p)),
        tr1 ++ tr2)

/-- The revset-iteration loop of `JjBackend::get_commits_in_range`: skip a
commit when its (exclusion-filtered) `get_changed_files` list is empty. -/
def jjCommitsLoop (o : JjOracle) :
    List String → Except VcsError (List StackedCommitInfo)
  | [] => .ok []
  | oid :: rest =>
    match o.resolveEval oid with
    | none => .error (.Other ("failed to load commit: " ++ oid))
    | some commit =>
      match (jjGetChangedFiles o commit.id).1 with
      | .error e => .error e
      | .ok changedFiles =>
        match jjCommitsLoop o rest with
        | .error e => .error e
        | .ok tail =>
          if changedFiles.isEmpty then .ok tail
          else
            .ok (⟨commit.id, ⟨commit.id.data.take 12⟩, some commit.changeId,
                commit.summary⟩ :: tail)

/-- `JjBackend::get_commits_in_range`: parse the range revset
`(from::to) ~ (from)`, walk it (newest first), keep commits with non-empty
filtered changed files, and reverse to oldest first. -/
def jjGetCommitsInRange (o : JjOracle) (fromRef toRef : String) :
    Except VcsError (List StackedCommitInfo) × List String :=
  let fromRef := trimStr fromRef
  let toRef := trimStr toRef
  let revsetStr := "(" ++ fromRef ++ "::" ++ toRef ++ ") ~ (" ++ fromRef ++ ")"
  (match o.parse revsetStr with
   | .error _ =>
     match detect_git_syntax fromRef with
     | some suggestion =>
       .error (.Other ("'" ++ fromRef ++ "' is git syntax, use '" ++
         suggestion ++ "' instead"))
     | none =>
       match detect_git_syntax toRef with
       | some suggestion =>
         .error (.Other ("'" ++ toRef ++ "' is git syntax, use '" ++
           suggestion ++ "' instead"))
       | none =>
         .error (.InvalidRef ("invalid range: " ++ fromRef ++ ".." ++ toRef))
   | .ok _ =>
     match jjCommitsLoop o (o.rangeWalk revsetStr) with
     | .error e => .error e
     | .ok commits => .ok commits.reverse,
   [revsetStr])

/-! ## Unified-diff formatter (`JjBackend::format_hunk` /
`format_diff_entry`)

The external `jj_lib::diff::diff` segmentation is not part of this
repository.  Modelled from the spec: it computes "a line-level
matching/differing segmentation between the two texts", i.e. a sequence of
`Matching` segments (equal on both sides) and `Different` segments (an old
block and a new block); each segment is represented by the line lists the
formatter extracts from its byte contents.  The formatter is therefore
parametrised by an arbitrary segmentation, which covers every possible
output of the external function. -/

/-- One `DiffHunk` of `jj_lib::diff::diff`, by its line decomposition. -/
inductive DiffSeg
  | matching (lines : List Chars)
  | different (oldLines newLines : List Chars)
deriving DecidableEq, Repr

/-- The old-side lines a segment contributes. -/
def segOldLines : DiffSeg → List Chars
  | .matching ls => ls
  | .different ols _ => ols

/-- The new-side lines a segment contributes. -/
def segNewLines : DiffSeg → List Chars
  | .matching ls => ls
  | .different _ nls => nls

/-- The old-side lines of a `Different` segment (empty for `Matching`). -/
def segOldDiff : DiffSeg → List Chars
  | .matching _ => []
  | .different ols _ => ols

/-- The new-side lines of a `Different` segment (empty for `Matching`). -/
def segNewDiff : DiffSeg → List Chars
  | .matching _ => []
  | .different _ nls => nls

/-- All removed (old, differing) lines of a segmentation, in order. -/
def oldDiffLines (segs : List DiffSeg) : List Chars :=
  (segs.map segOldDiff).flatten

/-- All added (new, differing) lines of a segmentation, in order. -/
def newDiffLines (segs : List DiffSeg) : List Chars :=
  (segs.map segNewDiff).flatten

/-- A segmentation is well-formed for the two inputs when its sides
concatenate back to the inputs' line lists. -/
def wfSegs (segs : List DiffSeg) (oldL newL : List Chars) : Prop :=
  (segs.map segOldLines).flatten = oldL ∧ (segs.map segNewLines).flatten = newL

instance (segs : List DiffSeg) (oldL newL : List Chars) :
    Decidable (wfSegs segs oldL newL) := by
  unfold wfSegs; infer_instance

/-- `CONTEXT_LINES`. -/
def CONTEXT_LINES : Nat := 3

/-- A structured output element of the formatter: a raw file-header line, a
hunk header `@@ -a,b +c,d @@`, or a diff row. -/
inductive Out
  | raw (line : Chars)
  | header (oldStart oldLen newStart newLen : Nat)
  | row (kind : LineKind) (content : Chars)
deriving DecidableEq, Repr

/-- The text of one output element (the exact line `format_hunk` /
`format_diff_entry` pushes, without its trailing newline). -/
def renderOut : Out → Chars
  | .raw l => l
  | .header a b c d =>
    "@@ -".data ++ natDigits a ++ [','] ++ natDigits b ++
      " +".data ++ natDigits c ++ [','] ++ natDigits d ++ " @@".data
  | .row .context content => ' ' :: content
  | .row .added content => '+' :: content
  | .row .removed content => '-' :: content

/-- The full output text: every element followed by `\n`. -/
def renderText (outs : List Out) : Chars :=
  (outs.map (fun o => renderOut o ++ ['\n'])).flatten

/-- The mutable locals of `format_hunk`'s scanning loop.  `pending` is
`pending_output` as a row list; `out` is the `output` string as an
element list. -/
structure FmtState where
  oldPos : Nat
  newPos : Nat
  pending : List (LineKind × Chars)
  hunkOldStart : Nat
  hunkNewStart : Nat
  hunkOldCount : Nat
  hunkNewCount : Nat
  inHunk : Bool
  out : List Out
deriving Repr

/-- The `@@` header `format_hunk` emits from the current state (including
the redundant `if start == 0 { 0 } else { start }` of the source). -/
def mkHeader (st : FmtState) : Out :=
  .header (if st.hunkOldStart = 0 then 0 else st.hunkOldStart)
    st.hunkOldCount
    (if st.hunkNewStart = 0 then 0 else st.hunkNewStart)
    st.hunkNewCount

/-- Pending rows as output elements. -/
def rowOuts (rows : List (LineKind × Chars)) : List Out :=
  rows.map fun r => Out.row r.1 r.2

/-- One iteration of the `for hunk in &hunks` loop of `format_hunk`. -/
def fmtStep (oldLines : List Chars) (st : FmtState) : DiffSeg → FmtState
  | .matching lines =>
    let lineCount := lines.length
    let st :=
      if st.inHunk then
        let taken := lines.take CONTEXT_LINES
        let st :=
          { st with
              pending := st.pending ++ taken.map (fun l => (LineKind.context, l)),
              hunkOldCount := st.hunkOldCount + taken.length,
              hunkNewCount := st.hunkNewCount + taken.length }
        if lineCount > CONTEXT_LINES * 2 then
          { st with
              out := st.out ++ mkHeader st :: rowOuts st.pending,
              pending := [],
              inHunk := false }
        else st
      else st
    { st with oldPos := st.oldPos + lineCount, newPos := st.newPos + lineCount }
  | .different oldContent newContent =>
    let st :=
      if ! st.inHunk then
        let contextStart := st.oldPos - CONTEXT_LINES
        let ctx := (List.range' contextStart (st.oldPos - contextStart)).filterMap
          (fun i => oldLines.get? i)
        { st with
            inHunk := true
            hunkOldStart := st.oldPos - CONTEXT_LINES + 1
            hunkNewStart := st.newPos - CONTEXT_LINES + 1
            hunkOldCount := ctx.length
            hunkNewCount := ctx.length
            pending := st.pending ++ ctx.map (fun l => (LineKind.context, l)) }
      else st
    { st with
        pending := st.pending ++
          oldContent.map (fun l => (LineKind.removed, l)) ++
          newContent.map (fun l => (LineKind.added, l)),
        hunkOldCount := st.hunkOldCount + oldContent.length,
        hunkNewCount := st.hunkNewCount + newContent.length,
        oldPos := st.oldPos + oldContent.length,
        newPos := st.newPos + newContent.length }

/-- The initial `format_hunk` state over an already-filled output buffer. -/
def fmtInit (output : List Out) : FmtState :=
  ⟨0, 0, [], 0, 0, 0, 0, false, output⟩

/-- `JjBackend::format_hunk`, parametrised by the segmentation the external
`jj_lib::diff::diff` call returns for `(old, new)`.  `output` is the buffer
the caller passes in (already holding the file-header lines when called from
`format_diff_entry`). -/
def formatHunkSegs (segs : List DiffSeg) (old new : String)
    (output : List Out) : List Out :=
  let oldLines := rustLinesCore old.data
  let st := segs.foldl (fmtStep oldLines) (fmtInit output)
  let out1 :=
    if st.inHunk then st.out ++ mkHeader st :: rowOuts st.pending else st.out
  if segs = [] ∨ (old = "" ∧ new = "") then out1
  else if out1 = [] ∧ old ≠ new then
    let oldLineCount := (rustLinesCore old.data).length
    let newLineCount := (rustLinesCore new.data).length
    Out.header (if oldLineCount = 0 then 0 else 1) oldLineCount
        (if newLineCount = 0 then 0 else 1) newLineCount ::
      ((rustLinesCore old.data).map (Out.row .removed) ++
        (rustLinesCore new.data).map (Out.row .added))
  else out1

/-- `JjBackend::format_diff_entry`, parametrised by the segmentation used by
whichever `format_hunk` call it makes. -/
def formatDiffEntry (path : Chars) (oldContent newContent : Option String)
    (segs : List DiffSeg) (output : List Out) : List Out :=
  match oldContent, newContent with
  | none, some content =>
    let output := output ++
      [Out.raw ("diff --git a/".data ++ path ++ " b/".data ++ path),
       Out.raw "new file mode 100644".data,
       Out.raw "--- /dev/null".data,
       Out.raw ("+++ b/".data ++ path)]
    formatHunkSegs segs "" content output
  | some content, none =>
    let output := output ++
      [Out.raw ("diff --git a/".data ++ path ++ " b/".data ++ path),
       Out.raw "deleted file mode 100644".data,
       Out.raw ("--- a/".data ++ path),
       Out.raw "+++ /dev/null".data]
    formatHunkSegs segs content "" output
  | some old, some new =>
    if old ≠ new then
      let output := output ++
        [Out.raw ("diff --git a/".data ++ path ++ " b/".data ++ path),
         Out.raw ("--- a/".data ++ path),
         Out.raw ("+++ b/".data ++ path)]
      formatHunkSegs segs old new output
    else output
  | none, none => output

/-- The jj `generate_diff` / `get_range_diff` entry loop: skip excluded
paths, otherwise append the entry's formatted diff.  Each input entry
carries its path, the two optional contents, and the segmentation for its
`format_hunk` call. -/
def jjGenerateDiffStep (out : List Out)
    (e : String × Option String × Option String × List DiffSeg) : List Out :=
  if should_exclude_path e.1 then out
  else formatDiffEntry e.1.data e.2.1 e.2.2.1 e.2.2.2 out

/-- The jj diff-synthesis loop over all tree-diff entries. -/
def jjGenerateDiff
    (entries : List (String × Option String × Option String × List DiffSeg)) :
    List Out :=
  entries.foldl jjGenerateDiffStep []

/-! ## Hunk blocks of a formatter output

A hunk block is one `@@` header together with the diff rows that follow it
(up to the next header); raw file-header lines are not rows. -/

/-- One emitted hunk: the four header fields and the rows written inside
it. -/
structure HunkBlock where
  oldStart : Nat
  oldLen : Nat
  newStart : Nat
  newLen : Nat
  rows : List (LineKind × Chars)
deriving DecidableEq, Repr

/-- Block-collection step: a header closes the current block and opens a
new one; a row extends the current block; raw lines belong to no block. -/
def blocksStep (acc : List HunkBlock × Option HunkBlock) (o : Out) :
    List HunkBlock × Option HunkBlock :=
  match o with
  | .header a b c d => (acc.1 ++ acc.2.toList, some ⟨a, b, c, d, []⟩)
  | .row k content =>
    match acc.2 with
    | some b => (acc.1, some { b with rows := b.rows ++ [(k, content)] })
    | none => (acc.1, none)
  | .raw _ => acc

/-- The hunk blocks of a formatter output. -/
def hunkBlocks (outs : List Out) : List HunkBlock :=
  let s := outs.foldl blocksStep ([], none)
  s.1 ++ s.2.toList

/-- Does this row count toward the old side (context or removed)? -/
def isOldSide : LineKind → Bool
  | .context => true
  | .removed => true
  | .added => false

/-- Does this row count toward the new side (context or added)? -/
def isNewSide : LineKind → Bool
  | .context => true
  | .added => true
  | .removed => false

/-- Is this a removed row? -/
def isRemovedKind : LineKind → Bool
  | .removed => true
  | _ => false

/-- Is this an added row? -/
def isAddedKind : LineKind → Bool
  | .added => true
  | _ => false

/-- Count of context-plus-removed rows (the old-side length of a hunk). -/
def countOldRows (rows : List (LineKind × Chars)) : Nat :=
  (rows.filter fun r => isOldSide r.1).length

/-- Count of context-plus-added rows (the new-side length of a hunk). -/
def countNewRows (rows : List (LineKind × Chars)) : Nat :=
  (rows.filter fun r => isNewSide r.1).length

/-- The removed-row contents of a row list, in order. -/
def removedOfRows (rows : List (LineKind × Chars)) : List Chars :=
  (rows.filter fun r => isRemovedKind r.1).map (·.2)

/-- The added-row contents of a row list, in order. -/
def addedOfRows (rows : List (LineKind × Chars)) : List Chars :=
  (rows.filter fun r => isAddedKind r.1).map (·.2)

/-- The output elements of one block. -/
def blockOuts (b : HunkBlock) : List Out :=
  Out.header b.oldStart b.oldLen b.newStart b.newLen :: rowOuts b.rows

/-- Removed contents of a block list. -/
def blocksRemoved (bs : List HunkBlock) : List Chars :=
  (bs.map fun b => removedOfRows b.rows).flatten

/-- Added contents of a block list. -/
def blocksAdded (bs : List HunkBlock) : List Chars :=
  (bs.map fun b => addedOfRows b.rows).flatten

/-- All rows of a block list. -/
def blocksRows (bs : List HunkBlock) : List (LineKind × Chars) :=
  (bs.map (·.rows)).flatten

/-- The kind/content projection of a parsed diff row. -/
def rowKC (ln : Line) : LineKind × Chars := (ln.kind, ln.content)

/-- All rows of a parsed `Diff`, in order. -/
def diffRows (d : Diff) : List (LineKind × Chars) :=
  (((d.files.map (·.hunks)).flatten.map (·.lines)).flatten).map rowKC

/-- The removed-row contents of a parsed `Diff`, in order. -/
def removedContents (d : Diff) : List Chars := removedOfRows (diffRows d)

/-- The added-row contents of a parsed `Diff`, in order. -/
def addedContents (d : Diff) : List Chars := addedOfRows (diffRows d)

/-! ## Row-count and projection lemmas -/

theorem countOldRows_append (a b : List (LineKind × Chars)) :
    countOldRows (a ++ b) = countOldRows a + countOldRows b := by
  simp [countOldRows]

theorem countNewRows_append (a b : List (LineKind × Chars)) :
    countNewRows (a ++ b) = countNewRows a + countNewRows b := by
  simp [countNewRows]

theorem removedOfRows_append (a b : List (LineKind × Chars)) :
    removedOfRows (a ++ b) = removedOfRows a ++ removedOfRows b := by
  simp [removedOfRows]

theorem addedOfRows_append (a b : List (LineKind × Chars)) :
    addedOfRows (a ++ b) = addedOfRows a ++ addedOfRows b := by
  simp [addedOfRows]

theorem countOldRows_ctx (ls : List Chars) :
    countOldRows (ls.map fun l => (LineKind.context, l)) = ls.length := by
  induction ls with
  | nil => rfl
  | cons l ls ih => simp [countOldRows, isOldSide, List.filter] at ih ⊢; omega

theorem countNewRows_ctx (ls : List Chars) :
    countNewRows (ls.map fun l => (LineKind.context, l)) = ls.length := by
  induction ls with
  | nil => rfl
  | cons l ls ih => simp [countNewRows, isNewSide, List.filter] at ih ⊢; omega

theorem countOldRows_rem (ls : List Chars) :
    countOldRows (ls.map fun l => (LineKind.removed, l)) = ls.length := by
  induction ls with
  | nil => rfl
  | cons l ls ih => simp [countOldRows, isOldSide, List.filter] at ih ⊢; omega

theorem countNewRows_rem (ls : List Chars) :
    countNewRows (ls.map fun l => (LineKind.removed, l)) = 0 := by
  induction ls with
  | nil => rfl
  | cons l ls _ => simp [countNewRows, isNewSide, List.filter]

theorem countOldRows_add (ls : List Chars) :
    countOldRows (ls.map fun l => (LineKind.added, l)) = 0 := by
  induction ls with
  | nil => rfl
  | cons l ls _ => simp [countOldRows, isOldSide, List.filter]

theorem countNewRows_add (ls : List Chars) :
    countNewRows (ls.map fun l => (LineKind.added, l)) = ls.length := by
  induction ls with
  | nil => rfl
  | cons l ls ih => simp [countNewRows, isNewSide, List.filter] at ih ⊢; omega

theorem removedOfRows_ctx (ls : List Chars) :
    removedOfRows (ls.map fun l => (LineKind.context, l)) = [] := by
  induction ls with
  | nil => rfl
  | cons l ls _ => simp [removedOfRows, isRemovedKind, List.filter]

theorem removedOfRows_rem (ls : List Chars) :
    removedOfRows (ls.map fun l => (LineKind.removed, l)) = ls := by
  induction ls with
  | nil => rfl
  | cons l ls ih => simpa [removedOfRows, isRemovedKind, List.filter] using ih

theorem removedOfRows_add (ls : List Chars) :
    removedOfRows (ls.map fun l => (LineKind.added, l)) = [] := by
  induction ls with
  | nil => rfl
  | cons l ls _ => simp [removedOfRows, isRemovedKind, List.filter]

theorem addedOfRows_ctx (ls : List Chars) :
    addedOfRows (ls.map fun l => (LineKind.context, l)) = [] := by
  induction ls with
  | nil => rfl
  | cons l ls _ => simp [addedOfRows, isAddedKind, List.filter]

theorem addedOfRows_rem (ls : List Chars) :
    addedOfRows (ls.map fun l => (LineKind.removed, l)) = [] := by
  induction ls with
  | nil => rfl
  | cons l ls _ => simp [addedOfRows, isAddedKind, List.filter]

theorem addedOfRows_add (ls : List Chars) :
    addedOfRows (ls.map fun l => (LineKind.added, l)) = ls := by
  induction ls with
  | nil => rfl
  | cons l ls ih => simpa [addedOfRows, isAddedKind, List.filter] using ih

theorem removedOfRows_nil : removedOfRows [] = [] := rfl

theorem addedOfRows_nil : addedOfRows [] = [] := rfl

theorem blocksRemoved_singleton (b : HunkBlock) :
    blocksRemoved [b] = removedOfRows b.rows := by
  simp [blocksRemoved]

theorem blocksAdded_singleton (b : HunkBlock) :
    blocksAdded [b] = addedOfRows b.rows := by
  simp [blocksAdded]

theorem blocksRows_singleton (b : HunkBlock) :
    blocksRows [b] = b.rows := by
  simp [blocksRows]

theorem blocksRemoved_append (a b : List HunkBlock) :
    blocksRemoved (a ++ b) = blocksRemoved a ++ blocksRemoved b := by
  simp [blocksRemoved]

theorem blocksAdded_append (a b : List HunkBlock) :
    blocksAdded (a ++ b) = blocksAdded a ++ blocksAdded b := by
  simp [blocksAdded]

theorem blocksRows_append (a b : List HunkBlock) :
    blocksRows (a ++ b) = blocksRows a ++ blocksRows b := by
  simp [blocksRows]

/-! ## The formatter scan invariant -/

/-- Invariant of `format_hunk`'s scanning loop.  `outs0` is the initial
output buffer, `P` constrains every row written so far, and `dOld`/`dNew`
are the differing lines of the segments already processed. -/
def fmtInv (outs0 : List Out) (P : LineKind × Chars → Prop)
    (dOld dNew : List Chars) (st : FmtState) : Prop :=
  ∃ bs : List HunkBlock,
    st.out = outs0 ++ (bs.map blockOuts).flatten ∧
    (∀ b ∈ bs, b.oldLen = countOldRows b.rows ∧
      b.newLen = countNewRows b.rows) ∧
    (st.inHunk = true → st.hunkOldCount = countOldRows st.pending ∧
      st.hunkNewCount = countNewRows st.pending) ∧
    (st.inHunk = false → st.pending = []) ∧
    blocksRemoved bs ++ removedOfRows st.pending = dOld ∧
    blocksAdded bs ++ addedOfRows st.pending = dNew ∧
    (∀ r ∈ blocksRows bs ++ st.pending, P r) ∧
    (st.inHunk = false → bs = [] → dOld = [] ∧ dNew = [])

/-- The scan invariant is preserved by one formatter step. -/
theorem fmtStep_inv (outs0 : List Out) (P : LineKind × Chars → Prop)
    (oldLines : List Chars) (dOld dNew : List Chars) (st : FmtState)
    (seg : DiffSeg)
    (hInv : fmtInv outs0 P dOld dNew st)
    (hget : ∀ l ∈ oldLines, P (.context, l))
    (hm : ∀ l ∈ (match seg with | .matching ls => ls | _ => []),
      P (.context, l))
    (ho : ∀ l ∈ segOldDiff seg, P (.removed, l))
    (hn : ∀ l ∈ segNewDiff seg, P (.added, l)) :
    fmtInv outs0 P (dOld ++ segOldDiff seg) (dNew ++ segNewDiff seg)
      (fmtStep oldLines st seg) := by
  obtain ⟨bs, hout, hbs, hcnt, hpend, hrem, hadd, hP, hemp⟩ := hInv
  cases seg with
  | matching lines =>
    simp only [segOldDiff, segNewDiff, List.append_nil]
    simp only [fmtStep]
    by_cases hin : st.inHunk = true
    · rw [if_pos hin]
      obtain ⟨hoc, hnc⟩ := hcnt hin
      by_cases hclose : lines.length > CONTEXT_LINES * 2
      · rw [if_pos hclose]
        refine ⟨bs ++ [⟨if st.hunkOldStart = 0 then 0 else st.hunkOldStart,
          st.hunkOldCount + (lines.take CONTEXT_LINES).length,
          if st.hunkNewStart = 0 then 0 else st.hunkNewStart,
          st.hunkNewCount + (lines.take CONTEXT_LINES).length,
          st.pending ++ (lines.take CONTEXT_LINES).map
            fun l => (LineKind.context, l)⟩],
          ?_, ?_, ?_, ?_, ?_, ?_, ?_, ?_⟩
        · simp only [List.map_append, List.map_cons, List.map_nil,
            List.flatten_append, List.flatten_cons, List.flatten_nil,
            List.append_nil, blockOuts, mkHeader, hout, List.append_assoc]
        · intro b hb
          rcases List.mem_append.mp hb with hb | hb
          · exact hbs b hb
          · rcases List.mem_singleton.mp hb with rfl
            constructor
            · show st.hunkOldCount + (lines.take CONTEXT_LINES).length =
                countOldRows (st.pending ++ (lines.take CONTEXT_LINES).map
                  fun l => (LineKind.context, l))
              rw [countOldRows_append, countOldRows_ctx, hoc]
            · show st.hunkNewCount + (lines.take CONTEXT_LINES).length =
                countNewRows (st.pending ++ (lines.take CONTEXT_LINES).map
                  fun l => (LineKind.context, l))
              rw [countNewRows_append, countNewRows_ctx, hnc]
        · intro h; simp at h
        · intro _; rfl
        · rw [blocksRemoved_append, blocksRemoved_singleton,
            removedOfRows_nil, List.append_nil]
          show blocksRemoved bs ++ removedOfRows (st.pending ++
            (lines.take CONTEXT_LINES).map
              fun l => (LineKind.context, l)) = dOld
          rw [removedOfRows_append, removedOfRows_ctx, List.append_nil, hrem]
        · rw [blocksAdded_append, blocksAdded_singleton,
            addedOfRows_nil, List.append_nil]
          show blocksAdded bs ++ addedOfRows (st.pending ++
            (lines.take CONTEXT_LINES).map
              fun l => (LineKind.context, l)) = dNew
          rw [addedOfRows_append, addedOfRows_ctx, List.append_nil, hadd]
        · intro r hr
          rw [List.append_nil, blocksRows_append, blocksRows_singleton] at hr
          rcases List.mem_append.mp hr with hr | hr
          · exact hP r (List.mem_append.mpr (.inl hr))
          · rcases List.mem_append.mp hr with hr | hr
            · exact hP r (List.mem_append.mpr (.inr hr))
            · obtain ⟨l, hl, hrl⟩ := List.mem_map.mp hr
              subst hrl
              exact hm l (List.mem_of_mem_take hl)
        · intro _ h; simp at h
      · rw [if_neg hclose]
        refine ⟨bs, hout, hbs, ?_, ?_, ?_, ?_, ?_, ?_⟩
        · intro _
          constructor
          · show st.hunkOldCount + (lines.take CONTEXT_LINES).length =
              countOldRows (st.pending ++ (lines.take CONTEXT_LINES).map
                fun l => (LineKind.context, l))
            rw [countOldRows_append, countOldRows_ctx, hoc]
          · show st.hunkNewCount + (lines.take CONTEXT_LINES).length =
              countNewRows (st.pending ++ (lines.take CONTEXT_LINES).map
                fun l => (LineKind.context, l))
            rw [countNewRows_append, countNewRows_ctx, hnc]
        · intro h
          simp only at h
          rw [hin] at h
          exact absurd h (by simp)
        · show blocksRemoved bs ++ removedOfRows (st.pending ++
            (lines.take CONTEXT_LINES).map
              fun l => (LineKind.context, l)) = dOld
          rw [removedOfRows_append, removedOfRows_ctx, List.append_nil, hrem]
        · show blocksAdded bs ++ addedOfRows (st.pending ++
            (lines.take CONTEXT_LINES).map
              fun l => (LineKind.context, l)) = dNew
          rw [addedOfRows_append, addedOfRows_ctx, List.append_nil, hadd]
        · intro r hr
          rcases List.mem_append.mp hr with hr | hr
          · exact hP r (List.mem_append.mpr (.inl hr))
          · rcases List.mem_append.mp hr with hr | hr
            · exact hP r (List.mem_append.mpr (.inr hr))
            · obtain ⟨l, hl, hrl⟩ := List.mem_map.mp hr
              subst hrl
              exact hm l (List.mem_of_mem_take hl)
        · intro h
          simp only at h
          rw [hin] at h
          exact absurd h (by simp)
    · rw [if_neg hin]
      refine ⟨bs, hout, hbs, ?_, hpend, hrem, hadd, hP, hemp⟩
      intro h
      simp only at h
      exact hcnt h
  | different oldContent newContent =>
    simp only [segOldDiff, segNewDiff]
    simp only [fmtStep]
    by_cases hin : st.inHunk = true
    · rw [if_neg (by simp [hin])]
      obtain ⟨hoc, hnc⟩ := hcnt hin
      refine ⟨bs, hout, hbs, ?_, ?_, ?_, ?_, ?_, ?_⟩
      · intro _
        constructor
        · show st.hunkOldCount + oldContent.length = countOldRows
            ((st.pending ++ oldContent.map fun l => (LineKind.removed, l)) ++
              newContent.map fun l => (LineKind.added, l))
          rw [countOldRows_append, countOldRows_append, countOldRows_rem,
            countOldRows_add, Nat.add_zero, hoc]
        · show st.hunkNewCount + newContent.length = countNewRows
            ((st.pending ++ oldContent.map fun l => (LineKind.removed, l)) ++
              newContent.map fun l => (LineKind.added, l))
          rw [countNewRows_append, countNewRows_append, countNewRows_rem,
            countNewRows_add, Nat.add_zero, hnc]
      · intro h
        simp only at h
        rw [hin] at h
        exact absurd h (by simp)
      · show blocksRemoved bs ++ removedOfRows
            ((st.pending ++ oldContent.map fun l => (LineKind.removed, l)) ++
              newContent.map fun l => (LineKind.added, l)) =
          dOld ++ oldContent
        rw [removedOfRows_append, removedOfRows_append, removedOfRows_rem,
          removedOfRows_add, List.append_nil, ← List.append_assoc, hrem]
      · show blocksAdded bs ++ addedOfRows
            ((st.pending ++ oldContent.map fun l => (LineKind.removed, l)) ++
              newContent.map fun l => (LineKind.added, l)) =
          dNew ++ newContent
        rw [addedOfRows_append, addedOfRows_append, addedOfRows_rem,
          addedOfRows_add, List.append_nil, ← List.append_assoc, hadd]
      · intro r hr
        rcases List.mem_append.mp hr with hr | hr
        · exact hP r (List.mem_append.mpr (.inl hr))
        · rcases List.mem_append.mp hr with hr | hr
          · rcases List.mem_append.mp hr with hr | hr
            · exact hP r (List.mem_append.mpr (.inr hr))
            · obtain ⟨l, hl, hrl⟩ := List.mem_map.mp hr
              subst hrl
              exact ho l hl
          · obtain ⟨l, hl, hrl⟩ := List.mem_map.mp hr
            subst hrl
            exact hn l hl
      · intro h
        simp only at h
        rw [hin] at h
        exact absurd h (by simp)
    · rw [if_pos (by simp [hin])]
      have hin' : st.inHunk = false := by
        cases hb : st.inHunk
        · rfl
        · exact absurd hb hin
      have hpnil : st.pending = [] := hpend hin'
      refine ⟨bs, hout, hbs, ?_, ?_, ?_, ?_, ?_, ?_⟩
      · intro _
        constructor
        · show ((List.range' (st.oldPos - CONTEXT_LINES)
              (st.oldPos - (st.oldPos - CONTEXT_LINES))).filterMap
                (fun i => oldLines.get? i)).length + oldContent.length =
            countOldRows (((st.pending ++
              ((List.range' (st.oldPos - CONTEXT_LINES)
                (st.oldPos - (st.oldPos - CONTEXT_LINES))).filterMap
                  (fun i => oldLines.get? i)).map
                    fun l => (LineKind.context, l)) ++
              oldContent.map fun l => (LineKind.removed, l)) ++
              newContent.map fun l => (LineKind.added, l))
          rw [countOldRows_append, countOldRows_append, countOldRows_append,
            countOldRows_rem, countOldRows_add, countOldRows_ctx, hpnil,
            Nat.add_zero]
          simp [countOldRows]
        · show ((List.range' (st.oldPos - CONTEXT_LINES)
              (st.oldPos - (st.oldPos - CONTEXT_LINES))).filterMap
                (fun i => oldLines.get? i)).length + newContent.length =
            countNewRows (((st.pending ++
              ((List.range' (st.oldPos - CONTEXT_LINES)
                (st.oldPos - (st.oldPos - CONTEXT_LINES))).filterMap
                  (fun i => oldLines.get? i)).map
                    fun l => (LineKind.context, l)) ++
              oldContent.map fun l => (LineKind.removed, l)) ++
              newContent.map fun l => (LineKind.added, l))
          rw [countNewRows_append, countNewRows_append, countNewRows_append,
            countNewRows_rem, countNewRows_add, countNewRows_ctx, hpnil,
            Nat.add_zero]
          simp [countNewRows]
      · intro h; simp at h
      · show blocksRemoved bs ++ removedOfRows (((st.pending ++
            ((List.range' (st.oldPos - CONTEXT_LINES)
              (st.oldPos - (st.oldPos - CONTEXT_LINES))).filterMap
                (fun i => oldLines.get? i)).map
                  fun l => (LineKind.context, l)) ++
            oldContent.map fun l => (LineKind.removed, l)) ++
            newContent.map fun l => (LineKind.added, l)) = dOld ++ oldContent
        rw [removedOfRows_append, removedOfRows_append, removedOfRows_append,
          removedOfRows_rem, removedOfRows_add, removedOfRows_ctx,
          List.append_nil, List.append_nil, ← List.append_assoc, hrem]
      · show blocksAdded bs ++ addedOfRows (((st.pending ++
            ((List.range' (st.oldPos - CONTEXT_LINES)
              (st.oldPos - (st.oldPos - CONTEXT_LINES))).filterMap
                (fun i => oldLines.get? i)).map
                  fun l => (LineKind.context, l)) ++
            oldContent.map fun l => (LineKind.removed, l)) ++
            newContent.map fun l => (LineKind.added, l)) = dNew ++ newContent
        rw [addedOfRows_append, addedOfRows_append, addedOfRows_append,
          addedOfRows_rem, addedOfRows_add, addedOfRows_ctx,
          List.append_nil, List.append_nil, ← List.append_assoc, hadd]
      · intro r hr
        rcases List.mem_append.mp hr with hr | hr
        · exact hP r (List.mem_append.mpr (.inl hr))
        · rcases List.mem_append.mp hr with hr | hr
          · rcases List.mem_append.mp hr with hr | hr
            · rcases List.mem_append.mp hr with hr | hr
              · exact hP r (List.mem_append.mpr (.inr hr))
              · obtain ⟨l, hl, hrl⟩ := List.mem_map.mp hr
                subst hrl
                obtain ⟨i, _, hil⟩ := List.mem_filterMap.mp hl
                exact hget l (List.get?_mem hil)
            · obtain ⟨l, hl, hrl⟩ := List.mem_map.mp hr
              subst hrl
              exact ho l hl
          · obtain ⟨l, hl, hrl⟩ := List.mem_map.mp hr
            subst hrl
            exact hn l hl
      · intro h; simp at h


/-- The invariant holds at the start of the scan. -/
theorem fmtInv_init (outs0 : List Out) (P : LineKind × Chars → Prop) :
    fmtInv outs0 P [] [] (fmtInit outs0) :=
  ⟨[], by simp [fmtInit], by simp, by simp [fmtInit, countOldRows,
    countNewRows], by simp [fmtInit],
    by simp [fmtInit, blocksRemoved, removedOfRows],
    by simp [fmtInit, blocksAdded, addedOfRows],
    by simp [blocksRows, fmtInit], by simp⟩

/-- The invariant after scanning a whole segment list. -/
theorem fmt_scan_inv (outs0 : List Out) (P : LineKind × Chars → Prop)
    (oldLines : List Chars)
    (hget : ∀ l ∈ oldLines, P (.context, l)) :
    ∀ (segs : List DiffSeg) (st : FmtState) (dOld dNew : List Chars),
      fmtInv outs0 P dOld dNew st →
      (∀ seg ∈ segs,
        (∀ l ∈ (match seg with | DiffSeg.matching ls => ls | _ => []),
          P (.context, l)) ∧
        (∀ l ∈ segOldDiff seg, P (.removed, l)) ∧
        (∀ l ∈ segNewDiff seg, P (.added, l))) →
      fmtInv outs0 P (dOld ++ oldDiffLines segs) (dNew ++ newDiffLines segs)
        (segs.foldl (fmtStep oldLines) st) := by
  intro segs
  induction segs with
  | nil =>
    intro st dOld dNew hInv _
    simpa [oldDiffLines, newDiffLines] using hInv
  | cons seg rest ih =>
    intro st dOld dNew hInv hsegs
    have hstep := fmtStep_inv outs0 P oldLines dOld dNew st seg hInv hget
      (hsegs seg (by simp)).1 (hsegs seg (by simp)).2.1
      (hsegs seg (by simp)).2.2
    have := ih (fmtStep oldLines st seg) (dOld ++ segOldDiff seg)
      (dNew ++ segNewDiff seg) hstep
      (fun s hs => hsegs s (by simp [hs]))
    simpa [oldDiffLines, newDiffLines, List.append_assoc] using this

/-- `rowOuts` of a constant-kind row list. -/
theorem rowOuts_map (k : LineKind) (ls : List Chars) :
    rowOuts (ls.map fun l => (k, l)) = ls.map (Out.row k) := by
  simp [rowOuts]

theorem rowOuts_append (a b : List (LineKind × Chars)) :
    rowOuts (a ++ b) = rowOuts a ++ rowOuts b := by
  simp [rowOuts]

theorem foldl_blocksStep_rowOuts (rows : List (LineKind × Chars)) :
    ∀ (acc : List HunkBlock) (a b c d : Nat) (done : List (LineKind × Chars)),
      List.foldl blocksStep (acc, some ⟨a, b, c, d, done⟩) (rowOuts rows) =
        (acc, some ⟨a, b, c, d, done ++ rows⟩) := by
  induction rows with
  | nil => intro acc a b c d done; simp [rowOuts]
  | cons r rows ih =>
    intro acc a b c d done
    simp only [rowOuts, List.map_cons, List.foldl_cons, blocksStep]
    have := ih acc a b c d (done ++ [(r.1, r.2)])
    simp only [rowOuts] at this
    rw [this]
    simp

theorem foldl_blocksStep_blockOuts (b : HunkBlock)
    (acc : List HunkBlock) (cur : Option HunkBlock) :
    List.foldl blocksStep (acc, cur) (blockOuts b) =
      (acc ++ cur.toList, some b) := by
  simp only [blockOuts, List.foldl_cons, blocksStep]
  rw [foldl_blocksStep_rowOuts]
  simp

theorem foldl_blocksStep_flat (bs : List HunkBlock) :
    ∀ (acc : List HunkBlock) (cur : Option HunkBlock),
      (List.foldl blocksStep (acc, cur) ((bs.map blockOuts).flatten)).1 ++
        (List.foldl blocksStep (acc, cur) ((bs.map blockOuts).flatten)).2.toList =
      acc ++ cur.toList ++ bs := by
  induction bs with
  | nil => intro acc cur; simp
  | cons b bs ih =>
    intro acc cur
    simp only [List.map_cons, List.flatten_cons, List.foldl_append]
    rw [foldl_blocksStep_blockOuts]
    rw [ih]
    simp

/-- Extracting the blocks of a block-structured output recovers the
blocks. -/
theorem hunkBlocks_flat (bs : List HunkBlock) :
    hunkBlocks ((bs.map blockOuts).flatten) = bs := by
  unfold hunkBlocks
  have := foldl_blocksStep_flat bs [] none
  simpa using this

/-- C1: for every hunk emitted by the unified-diff formatter, the `oldLen`
header field equals the number of context-plus-removed rows written inside
that hunk, and `newLen` equals the number of context-plus-added rows — for
all

 pairs of input blobs and every possible segmentation returned by the
external diff. -/
theorem c1_hunk_header_counts (old new : String) (segs : List DiffSeg)
    (blk : HunkBlock)
    (hblk : blk ∈ hunkBlocks (formatHunkSegs segs old new [])) :
    blk.oldLen = countOldRows blk.rows ∧ blk.newLen = countNewRows blk.rows := by
  have hinv := fmt_scan_inv [] (fun _ => True) (rustLinesCore old.data)
    (by simp) segs (fmtInit []) [] [] (fmtInv_init [] _)
    (by intro seg hs; exact ⟨by simp, by simp, by simp⟩)
  obtain ⟨bs, hout, hbs, hcnt, hpend, _, _, _, _⟩ := hinv
  unfold formatHunkSegs at hblk
  dsimp only at hblk
  set st := List.foldl (fmtStep (rustLinesCore old.data)) (fmtInit []) segs
    with hst
  by_cases hin : st.inHunk = true
  · obtain ⟨hoc, hnc⟩ := hcnt hin
    have hout1 : st.out ++ mkHeader st :: rowOuts st.pending =
        ((bs ++ [(⟨if st.hunkOldStart = 0 then 0 else st.hunkOldStart,
          st.hunkOldCount, if st.hunkNewStart = 0 then 0 else st.hunkNewStart,
          st.hunkNewCount, st.pending⟩ : HunkBlock)]).map blockOuts).flatten := by
      simp [hout, blockOuts, mkHeader, rowOuts]
    have hbsok : ∀ b ∈ bs ++ [(⟨if st.hunkOldStart = 0 then 0 else
        st.hunkOldStart, st.hunkOldCount,
        if st.hunkNewStart = 0 then 0 else st.hunkNewStart,
        st.hunkNewCount, st.pending⟩ : HunkBlock)],
        b.oldLen = countOldRows b.rows ∧ b.newLen = countNewRows b.rows := by
      intro b hb
      rcases List.mem_append.mp hb with hb | hb
      · exact hbs b hb
      · rcases List.mem_singleton.mp hb with rfl
        exact ⟨hoc, hnc⟩
    rw [if_pos hin] at hblk
    by_cases hearly : segs = [] ∨ (old = "" ∧ new = "")
    · rw [if_pos hearly] at hblk
      rw [hout1, hunkBlocks_flat] at hblk
      exact hbsok blk hblk
    · rw [if_neg hearly] at hblk
      by_cases hfb : st.out ++ mkHeader st :: rowOuts st.pending = [] ∧
          old ≠ new
      · exact absurd hfb.1 (by simp)
      · rw [if_neg hfb] at hblk
        rw [hout1, hunkBlocks_flat] at hblk
        exact hbsok blk hblk
  · have hinf : st.inHunk = false := by
      cases hb : st.inHunk
      · rfl
      · exact absurd hb hin
    have hpnil := hpend hinf
    rw [if_neg hin] at hblk
    have hfbblk : ∀ h ∈ hunkBlocks (Out.header
        (if (rustLinesCore old.data).length = 0 then 0 else 1)
        (rustLinesCore old.data).length
        (if (rustLinesCore new.data).length = 0 then 0 else 1)
        (rustLinesCore new.data).length ::
        ((rustLinesCore old.data).map (Out.row .removed) ++
          (rustLinesCore new.data).map (Out.row .added))),
        h.oldLen = countOldRows h.rows ∧ h.newLen = countNewRows h.rows := by
      intro h hh
      have hshape : Out.header
          (if (rustLinesCore old.data).length = 0 then 0 else 1)
          (rustLinesCore old.data).length
          (if (rustLinesCore new.data).length = 0 then 0 else 1)
          (rustLinesCore new.data).length ::
          ((rustLinesCore old.data).map (Out.row .removed) ++
            (rustLinesCore new.data).map (Out.row .added)) =
          ([(⟨(if (rustLinesCore old.data).length = 0 then 0 else 1),
            (rustLinesCore old.data).length,
            (if (rustLinesCore new.data).length = 0 then 0 else 1),
            (rustLinesCore new.data).length,
            (rustLinesCore old.data).map (fun l => (LineKind.removed, l)) ++
              (rustLinesCore new.data).map
                (fun l => (LineKind.added, l))⟩ : HunkBlock)].map
              blockOuts).flatten := by
        simp only [List.map_cons, List.map_nil, List.flatten_cons,
          List.flatten_nil, List.append_nil, blockOuts]
        rw [rowOuts_append, rowOuts_map, rowOuts_map]
      rw [hshape, hunkBlocks_flat] at hh
      rcases List.mem_singleton.mp hh with rfl
      constructor
      · show (rustLinesCore old.data).length = countOldRows _
        rw [countOldRows_append, countOldRows_rem, countOldRows_add,
          Nat.add_zero]
      · show (rustLinesCore new.data).length = countNewRows _
        rw [countNewRows_append, countNewRows_rem, countNewRows_add,
          Nat.zero_add]
    by_cases hearly : segs = [] ∨ (old = "" ∧ new = "")
    · rw [if_pos hearly] at hblk
      rw [hout, List.nil_append, hunkBlocks_flat] at hblk
      exact hbs blk hblk
    · rw [if_neg hearly] at hblk
      by_cases hfb : st.out = [] ∧ old ≠ new
      · rw [if_pos hfb] at hblk
        exact hfbblk blk hblk
      · rw [if_neg hfb] at hblk
        rw [hout, List.nil_append, hunkBlocks_flat] at hblk
        exact hbs blk hblk

/-- C1 witness: the header-count property evaluated on a concrete pair of
blobs and segmentation. -/
theorem c1_hunk_header_counts_witness :
    (⟨1, 1, 1, 1, [(LineKind.removed, "a".data),
        (LineKind.added, "b".data)]⟩ : HunkBlock) ∈
      hunkBlocks (formatHunkSegs [.different ["a".data] ["b".data]]
        "a\n" "b\n" []) ∧
    (1 = countOldRows [(LineKind.removed, "a".data),
        (LineKind.added, "b".data)] ∧
      1 = countNewRows [(LineKind.removed, "a".data),
        (LineKind.added, "b".data)]) := by
  refine ⟨by decide, ?_⟩
  exact c1_hunk_header_counts "a\n" "b\n" [.different ["a".data] ["b".data]]
    ⟨1, 1, 1, 1, [(LineKind.removed, "a".data), (LineKind.added, "b".data)]⟩
    (by decide)

/-! ## Rendering / re-splitting lemmas -/

theorem splitNl_ne_nil (cs : List Char) : splitNl cs ≠ [] := by
  cases cs with
  | nil => simp [splitNl]
  | cons c cs =>
    unfold splitNl
    by_cases h : c = '\n'
    · simp [h]
    · simp only [h, if_false]
      cases splitNl cs <;> simp

theorem splitNl_no_nl : ∀ (cs : List Char), ∀ l ∈ splitNl cs, '\n' ∉ l := by
  intro cs
  induction cs with
  | nil => intro l hl; simp [splitNl] at hl; simp [hl]
  | cons c cs ih =>
    intro l hl
    unfold splitNl at hl
    by_cases h : c = '\n'
    · simp only [h, if_true] at hl
      rcases List.mem_cons.mp hl with hl | hl
      · simp [hl]
      · exact ih l hl
    · simp only [h, if_false] at hl
      cases hsp : splitNl cs with
      | nil => exact absurd hsp (splitNl_ne_nil cs)
      | cons l₀ ls =>
        rw [hsp] at hl
        rcases List.mem_cons.mp hl with hl | hl
        · subst hl
          intro hmem
          rcases List.mem_cons.mp hmem with hmem | hmem
          · exact h hmem.symm
          · exact ih l₀ (by rw [hsp]; exact List.mem_cons_self l₀ ls) hmem
        · exact ih l (by rw [hsp]; exact List.mem_cons_of_mem l₀ hl)

theorem stripCR_subset (l : List Char) : ∀ x ∈ stripCR l, x ∈ l := by
  intro x hx
  unfold stripCR at hx
  split at hx
  · exact (List.dropLast_sublist l).subset hx
  · exact hx

theorem rustLinesCore_no_nl (cs : List Char) :
    ∀ l ∈ rustLinesCore cs, '\n' ∉ l := by
  intro l hl
  unfold rustLinesCore at hl
  rcases List.mem_append.mp hl with hl | hl
  · obtain ⟨l₀, hl₀, hstrip⟩ := List.mem_map.mp hl
    subst hstrip
    intro hmem
    exact splitNl_no_nl cs l₀
      ((List.dropLast_sublist _).subset hl₀) (stripCR_subset l₀ '\n' hmem)
  · split at hl
    · simp at hl
    · rcases List.mem_singleton.mp hl with rfl
      cases hlast : (splitNl cs).getLast? with
      | none =>
        exact absurd (List.getLast?_eq_none_iff.mp hlast) (splitNl_ne_nil cs)
      | some l₀ =>
        have hmem : l₀ ∈ splitNl cs := by
          obtain ⟨h, hx⟩ := List.mem_getLast?_eq_getLast hlast
          rw [hx]
          exact List.getLast_mem h
        simpa [hlast] using splitNl_no_nl cs l₀ hmem

theorem splitNl_cons_ne (c : Char) (cs : List Char) (hc : c ≠ '\n') :
    splitNl (c :: cs) =
      match splitNl cs with
      | [] => [[c]]
      | l :: ls => (c :: l) :: ls := by
  conv_lhs => unfold splitNl
  simp [hc]

theorem splitNl_append_newline (l rest : List Char) (h : '\n' ∉ l) :
    splitNl (l ++ '\n' :: rest) = l :: splitNl rest := by
  induction l with
  | nil => simp [splitNl]
  | cons c l ih =>
    have hc : c ≠ '\n' := fun hc => h (by simp [hc])
    have ih' := ih (fun hm => h (List.mem_cons_of_mem c hm))
    rw [List.cons_append, splitNl_cons_ne c _ hc, ih']

/-- Re-splitting one rendered line off a newline-terminated stream. -/
theorem rustLinesCore_append (l rest : List Char) (hnl : '\n' ∉ l)
    (hcr : l.getLast? ≠ some '\r') :
    rustLinesCore (l ++ '\n' :: rest) = l :: rustLinesCore rest := by
  unfold rustLinesCore
  rw [splitNl_append_newline l rest hnl]
  cases hsp : splitNl rest with
  | nil => exact absurd hsp (splitNl_ne_nil rest)
  | cons s₀ ss =>
    have hstrip : stripCR l = l := by
      unfold stripCR
      rw [if_neg hcr]
    simp only [List.getLast?_cons_cons, List.map_cons]
    rw [show (l :: s₀ :: ss).dropLast = l :: (s₀ :: ss).dropLast by
      simp [List.dropLast]]
    simp only [List.map_cons, hstrip, List.cons_append]

/-- Re-splitting the rendered output recovers the rendered lines. -/
theorem renderText_lines (outs : List Out)
    (h : ∀ o ∈ outs, '\n' ∉ renderOut o ∧ (renderOut o).getLast? ≠ some '\r') :
    rustLinesCore (renderText outs) = outs.map renderOut := by
  induction outs with
  | nil => rfl
  | cons o os ih =>
    have hshape : renderText (o :: os) =
        renderOut o ++ '\n' :: renderText os := by
      simp [renderText]
    rw [hshape, rustLinesCore_append _ _ (h o (by simp)).1 (h o (by simp)).2,
      ih (fun o' ho' => h o' (List.mem_cons_of_mem o ho'))]
    simp

/-! ## Digit-character lemmas -/

theorem digitChar_mem (d : Nat) :
    digitChar d ∈ (['0', '1', '2', '3', '4', '5', '6', '7', '8', '9'] :
      List Char) := by
  unfold digitChar
  repeat' split
  all_goals decide

theorem natDigitsAux_mem : ∀ (fuel n : Nat), ∀ c ∈ natDigitsAux fuel n,
    c ∈ (['0', '1', '2', '3', '4', '5', '6', '7', '8', '9'] : List Char) := by
  intro fuel
  induction fuel with
  | zero =>
    intro n c hc
    simp only [natDigitsAux, List.mem_singleton] at hc
    subst hc
    exact digitChar_mem _
  | succ fuel ih =>
    intro n c hc
    unfold natDigitsAux at hc
    split at hc
    · rcases List.mem_singleton.mp hc with rfl
      exact digitChar_mem _
    · rcases List.mem_append.mp hc with hc | hc
      · exact ih _ c hc
      · rcases List.mem_singleton.mp hc with rfl
        exact digitChar_mem _

theorem natDigits_mem (n : Nat) : ∀ c ∈ natDigits n,
    c ∈ (['0', '1', '2', '3', '4', '5', '6', '7', '8', '9'] : List Char) :=
  natDigitsAux_mem n n

theorem digit_not_ws {c : Char}
    (h : c ∈ (['0', '1', '2', '3', '4', '5', '6', '7', '8', '9'] :
      List Char)) : c.isWhitespace = false := by
  fin_cases h <;> decide

theorem digit_ne_nl {c : Char}
    (h : c ∈ (['0', '1', '2', '3', '4', '5', '6', '7', '8', '9'] :
      List Char)) : c ≠ '\n' := by
  fin_cases h <;> decide

/-- A pattern whose head differs from the first character is not a
prefix. -/
theorem isPrefixOf_head_ne {pat : Chars} {c : Char}
    (h : pat.head? = some c) {x : Char} (hx : x ≠ c) (l : Chars) :
    pat.isPrefixOf (x :: l) = false := by
  cases pat with
  | nil => simp at h
  | cons p ps =>
    have hpc : p = c := by simpa using h
    subst hpc
    have hb : (p == x) = false := beq_eq_false_iff_ne.mpr
      (fun he => hx he.symm)
    simp [List.isPrefixOf, hb]

/-! ## Parser lemmas for formatter-shaped input -/

theorem splitOnSubAux_length_pos (pat : Chars) :
    ∀ (fuel : Nat) (xs acc : Chars),
      1 ≤ (splitOnSubAux pat fuel xs acc).length := by
  intro fuel
  induction fuel with
  | zero => intro xs acc; simp [splitOnSubAux]
  | succ fuel ih =>
    intro xs acc
    cases xs with
    | nil => simp [splitOnSubAux]
    | cons c cs =>
      unfold splitOnSubAux
      split
      · simp
      · exact ih cs (c :: acc)

theorem splitOnSubAux_length_two (pat : Chars) (hpat : pat ≠ []) :
    ∀ (fuel : Nat) (xs acc : Chars), xs.length ≤ fuel →
      listContainsSub pat xs = true →
      2 ≤ (splitOnSubAux pat fuel xs acc).length := by
  have hnil : listContainsSub pat [] = false := by
    cases pat with
    | nil => exact absurd rfl hpat
    | cons p ps => simp [listContainsSub, List.isPrefixOf]
  intro fuel
  induction fuel with
  | zero =>
    intro xs acc hlen hcont
    have hx : xs = [] := List.length_eq_zero.mp (Nat.le_zero.mp hlen)
    rw [hx, hnil] at hcont
    exact absurd hcont (by simp)
  | succ fuel ih =>
    intro xs acc hlen hcont
    cases xs with
    | nil =>
      rw [hnil] at hcont
      exact absurd hcont (by simp)
    | cons c cs =>
      unfold splitOnSubAux
      by_cases hp : pat.isPrefixOf (c :: cs)
      · rw [if_pos hp]
        have := splitOnSubAux_length_pos pat fuel
          (List.drop (pat.length - 1) cs) []
        simp only [List.length_cons]
        omega
      · rw [if_neg hp]
        refine ih cs (c :: acc) (by simp at hlen; omega) ?_
        have : pat.isPrefixOf (c :: cs) = false := by
          cases hq : pat.isPrefixOf (c :: cs)
          · rfl
          · exact absurd hq hp
        simpa [listContainsSub, this] using hcont

theorem splitOnSub_get1 (pat xs : Chars) (hpat : pat ≠ [])
    (hcont : listContainsSub pat xs = true) :
    ∃ t, (splitOnSub pat xs).get? 1 = some t := by
  have h2 := splitOnSubAux_length_two pat hpat xs.length xs [] le_rfl hcont
  unfold splitOnSub
  exact ⟨_, List.get?_eq_get (by omega)⟩

theorem containsSub_append_mid (pat xs ys : Chars) (hpat : pat ≠ []) :
    listContainsSub pat (xs ++ (pat ++ ys)) = true := by
  induction xs with
  | nil =>
    cases hp : pat with
    | nil => exact absurd hp hpat
    | cons q qs =>
      simp only [List.nil_append, List.cons_append]
      unfold listContainsSub
      have hpre : (q :: qs).isPrefixOf (q :: (qs ++ ys)) = true := by
        rw [List.isPrefixOf_iff_prefix, ← List.cons_append]
        exact List.prefix_append _ _
      simp [hpre]
  | cons x xs ih =>
    simp only [List.cons_append]
    unfold listContainsSub
    simp [ih]

/-- The `diff --git a/<p> b/<p>` line opens a file in the parser. -/
theorem parseStep_init_dg (p : Chars) :
    ∃ p', parseStep ParseState.init
        ("diff --git a/".data ++ p ++ " b/".data ++ p) =
      ⟨[], some ⟨p', []⟩, none, 0, 0⟩ := by
  have hdg : "diff --git".data.isPrefixOf
      ("diff --git a/".data ++ p ++ " b/".data ++ p) = true := by
    rw [List.isPrefixOf_iff_prefix]
    rw [show "diff --git a/".data = "diff --git".data ++ " a/".data
      from rfl]
    simp only [List.append_assoc]
    exact List.prefix_append _ _
  have hcont : listContainsSub " b/".data
      ("diff --git a/".data ++ p ++ " b/".data ++ p) = true := by
    rw [show "diff --git a/".data ++ p ++ " b/".data ++ p =
      ("diff --git a/".data ++ p) ++ (" b/".data ++ p) by
        simp [List.append_assoc]]
    exact containsSub_append_mid _ _ _ (by decide)
  obtain ⟨t, ht⟩ := splitOnSub_get1 " b/".data
    ("diff --git a/".data ++ p ++ " b/".data ++ p) (by decide) hcont
  refine ⟨t, ?_⟩
  unfold parseStep
  rw [if_pos hdg]
  rw [ht]
  simp [ParseState.init]

theorem splitWsAux_word (w : Chars)
    (hw : ∀ c ∈ w, c.isWhitespace = false) :
    ∀ (rest acc : Chars), (w ≠ [] ∨ acc ≠ []) →
      splitWsAux (w ++ ' ' :: rest) acc =
        (acc.reverse ++ w) :: splitWsAux rest [] := by
  induction w with
  | nil =>
    intro rest acc hne
    have hacc : acc ≠ [] := by
      rcases hne with h | h
      · exact absurd rfl h
      · exact h
    simp only [List.nil_append, List.append_nil]
    show (if (' ').isWhitespace = true then
        (if acc.isEmpty = true then splitWsAux rest []
         else acc.reverse :: splitWsAux rest [])
      else splitWsAux rest (' ' :: acc)) = acc.reverse :: splitWsAux rest []
    rw [if_pos (by decide)]
    rw [if_neg (by simpa using hacc)]
  | cons c w ih =>
    intro rest acc _
    have hc : c.isWhitespace = false := hw c (by simp)
    simp only [List.cons_append]
    show (if c.isWhitespace = true then
        (if acc.isEmpty = true then splitWsAux (w ++ ' ' :: rest) []
         else acc.reverse :: splitWsAux (w ++ ' ' :: rest) [])
      else splitWsAux (w ++ ' ' :: rest) (c :: acc)) =
      (acc.reverse ++ c :: w) :: splitWsAux rest []
    rw [if_neg (by simp [hc])]
    rw [ih (fun x hx => hw x (by simp [hx])) rest (c :: acc) (.inr (by simp))]
    simp

theorem splitWsAux_final (w : Chars)
    (hw : ∀ c ∈ w, c.isWhitespace = false) :
    ∀ acc : Chars, (w ≠ [] ∨ acc ≠ []) →
      splitWsAux w acc = [acc.reverse ++ w] := by
  induction w with
  | nil =>
    intro acc hne
    have hacc : acc ≠ [] := by
      rcases hne with h | h
      · exact absurd rfl h
      · exact h
    unfold splitWsAux
    rw [if_neg (by simpa using hacc)]
    simp
  | cons c w ih =>
    intro acc _
    have hc : c.isWhitespace = false := hw c (by simp)
    unfold splitWsAux
    rw [if_neg (by simp [hc])]
    rw [ih (fun x hx => hw x (by simp [hx])) (c :: acc) (.inr (by simp))]
    simp

theorem numWord_not_ws (x : Char) (s : Char) (a b : Nat)
    (hs : s.isWhitespace = false) (hx : x.isWhitespace = false) :
    ∀ c ∈ s :: (natDigits a ++ x :: natDigits b), c.isWhitespace = false := by
  intro c hc
  rcases List.mem_cons.mp hc with hc | hc
  · subst hc; exact hs
  · rcases List.mem_append.mp hc with hc | hc
    · exact digit_not_ws (natDigits_mem a c hc)
    · rcases List.mem_cons.mp hc with hc | hc
      · subst hc; exact hx
      · exact digit_not_ws (natDigits_mem b c hc)

/-- The rendered hunk header splits into exactly four whitespace words. -/
theorem splitWs_header (a b c d : Nat) :
    splitWs (renderOut (Out.header a b c d)) =
      ["@@".data, '-' :: (natDigits a ++ ',' :: natDigits b),
       '+' :: (natDigits c ++ ',' :: natDigits d), "@@".data] := by
  have hshape : renderOut (Out.header a b c d) =
      "@@".data ++ ' ' :: (('-' :: (natDigits a ++ ',' :: natDigits b)) ++
        ' ' :: (('+' :: (natDigits c ++ ',' :: natDigits d)) ++
          ' ' :: "@@".data)) := by
    simp [renderOut]
  rw [hshape]
  unfold splitWs
  rw [splitWsAux_word "@@".data (by decide) _ [] (.inl (by decide))]
  rw [splitWsAux_word ('-' :: (natDigits a ++ ',' :: natDigits b))
    (numWord_not_ws ',' '-' a b (by decide) (by decide)) _ []
    (.inl (by simp))]
  rw [splitWsAux_word ('+' :: (natDigits c ++ ',' :: natDigits d))
    (numWord_not_ws ',' '+' c d (by decide) (by decide)) _ []
    (.inl (by simp))]
  rw [splitWsAux_final "@@".data (by decide) [] (.inl (by decide))]
  simp

/-- A rendered `@@` header line advances the parser to a fresh hunk,
closing any open hunk into the current file. -/
theorem parseStep_header (st : ParseState) (f : FileDiff)
    (hf : st.currentFile = some f) (a b c d : Nat) :
    ∃ ol nl, parseStep st (renderOut (Out.header a b c d)) =
      { files := st.files,
        currentFile := some { f with hunks := f.hunks ++
          st.currentHunk.toList },
        currentHunk := some ⟨ol, nl, []⟩, oldLine := ol, newLine := nl } := by
  have hline : renderOut (Out.header a b c d) =
      '@' :: ('@' :: (' ' :: ('-' :: (natDigits a ++ [','] ++ natDigits b ++
        " +".data ++ natDigits c ++ [','] ++ natDigits d ++
        " @@".data)))) := by
    simp [renderOut]
  have hdg : "diff --git".data.isPrefixOf
      (renderOut (Out.header a b c d)) = false := by
    rw [hline]
    exact isPrefixOf_head_ne
      (show "diff --git".data.head? = some 'd' from rfl) (by decide) _
  have hat : "@@".data.isPrefixOf (renderOut (Out.header a b c d)) = true := by
    rw [hline]
    simp [List.isPrefixOf]
  unfold parseStep
  rw [if_neg (by simp [hdg]), if_pos hat]
  rw [hf]
  have hparts := splitWs_header a b c d
  cases hc : st.currentHunk with
  | some h =>
    simp only [hparts, List.length_cons, List.length_nil]
    rw [if_pos (by norm_num)]
    exact ⟨_, _, rfl⟩
  | none =>
    simp only [hparts, List.length_cons, List.length_nil,
      Option.toList_none, List.append_nil]
    rw [if_pos (by norm_num)]
    exact ⟨_, _, rfl⟩

/-- A rendered diff row with benign content appends exactly that row to the
open hunk. -/
theorem parseStep_row (st : ParseState) (hunk : Hunk)
    (hh : st.currentHunk = some hunk) (k : LineKind) (content : Chars)
    (hrem : k = .removed → "--".data.isPrefixOf content = false)
    (haddk : k = .added → "++".data.isPrefixOf content = false) :
    ∃ ln ol nl, rowKC ln = (k, content) ∧
      parseStep st (renderOut (Out.row k content)) =
        { files := st.files, currentFile := st.currentFile,
          currentHunk := some { hunk with lines := hunk.lines ++ [ln] },
          oldLine := ol, newLine := nl } := by
  cases k with
  | context =>
    have hdg : "diff --git".data.isPrefixOf (' ' :: content) = false :=
      isPrefixOf_head_ne
        (show "diff --git".data.head? = some 'd' from rfl) (by decide) content
    have hat : "@@".data.isPrefixOf (' ' :: content) = false :=
      isPrefixOf_head_ne
        (show "@@".data.head? = some '@' from rfl) (by decide) content
    refine ⟨Line.contextRow content st.oldLine st.newLine,
      wrap32succ st.oldLine, wrap32succ st.newLine, rfl, ?_⟩
    show parseStep st (' ' :: content) = _
    unfold parseStep
    rw [if_neg (by simp [hdg]), if_neg (by simp [hat])]
    simp only [hh]
    rw [if_neg (by simp), if_neg (by simp), if_pos (by simp)]
    simp [Line.contextRow]
  | removed =>
    have hdash : "---".data.isPrefixOf ('-' :: content) = false := by
      show (('-' == '-') && "--".data.isPrefixOf content) = false
      rw [hrem rfl]
      rfl
    have hdg : "diff --git".data.isPrefixOf ('-' :: content) = false :=
      isPrefixOf_head_ne
        (show "diff --git".data.head? = some 'd' from rfl) (by decide) content
    have hat : "@@".data.isPrefixOf ('-' :: content) = false :=
      isPrefixOf_head_ne
        (show "@@".data.head? = some '@' from rfl) (by decide) content
    refine ⟨Line.removedRow content st.oldLine,
      wrap32succ st.oldLine, st.newLine, rfl, ?_⟩
    show parseStep st ('-' :: content) = _
    unfold parseStep
    rw [if_neg (by simp [hdg]), if_neg (by simp [hat])]
    simp only [hh]
    rw [if_neg (by simp), if_pos (by simp [hdash])]
    simp [Line.removedRow]
  | added =>
    have hplus : "+++".data.isPrefixOf ('+' :: content) = false := by
      show (('+' == '+') && "++".data.isPrefixOf content) = false
      rw [haddk rfl]
      rfl
    have hdg : "diff --git".data.isPrefixOf ('+' :: content) = false :=
      isPrefixOf_head_ne
        (show "diff --git".data.head? = some 'd' from rfl) (by decide) content
    have hat : "@@".data.isPrefixOf ('+' :: content) = false :=
      isPrefixOf_head_ne
        (show "@@".data.head? = some '@' from rfl) (by decide) content
    refine ⟨Line.addedRow content st.newLine,
      st.oldLine, wrap32succ st.newLine, rfl, ?_⟩
    show parseStep st ('+' :: content) = _
    unfold parseStep
    rw [if_neg (by simp [hdg]), if_neg (by simp [hat])]
    simp only [hh]
    rw [if_pos (by simp [hplus])]
    simp [Line.addedRow]

/-- A line that opens no file and no hunk and reaches the parser with no open
hunk leaves the state unchanged. -/
theorem parseStep_meta_noop (st : ParseState) (line : Chars)
    (hdg : "diff --git".data.isPrefixOf line = false)
    (hat : "@@".data.isPrefixOf line = false)
    (hh : st.currentHunk = none) :
    parseStep st line = st := by
  unfold parseStep
  rw [if_neg (by simp [hdg]), if_neg (by simp [hat])]
  simp only [hh]

/-- Folding the parser over a list of rendered rows with an open hunk
appends exactly those rows (as `Line`s) to the hunk. -/
theorem parse_rows_fold (rows : List (LineKind × Chars)) :
    (∀ r ∈ rows,
      (r.1 = LineKind.removed → "--".data.isPrefixOf r.2 = false) ∧
      (r.1 = LineKind.added → "++".data.isPrefixOf r.2 = false)) →
    ∀ (st : ParseState) (hunk : Hunk), st.currentHunk = some hunk →
      ∃ lns ol nl, lns.map rowKC = rows ∧
        (rows.map fun r => renderOut (Out.row r.1 r.2)).foldl parseStep st =
          { files := st.files, currentFile := st.currentFile,
            currentHunk := some { hunk with lines := hunk.lines ++ lns },
            oldLine := ol, newLine := nl } := by
  induction rows with
  | nil =>
    intro _ st hunk hh
    refine ⟨[], st.oldLine, st.newLine, rfl, ?_⟩
    simp only [List.map_nil, List.foldl_nil, List.append_nil]
    cases st with
    | mk fs cf ch ol nl =>
      replace hh : ch = some hunk := hh
      subst hh
      rfl
  | cons r rows ih =>
    intro hok st hunk hh
    obtain ⟨ln, ol1, nl1, hkc, hstep⟩ := parseStep_row st hunk hh r.1 r.2
      (fun h => (hok r (by simp)).1 h) (fun h => (hok r (by simp)).2 h)
    obtain ⟨lns, ol, nl, hmap, hfold⟩ :=
      ih (fun x hx => hok x (List.mem_cons_of_mem r hx))
        (parseStep st (renderOut (Out.row r.1 r.2)))
        ⟨hunk.oldStart, hunk.newStart, hunk.lines ++ [ln]⟩
        (by rw [hstep])
    refine ⟨ln :: lns, ol, nl, ?_, ?_⟩
    · simp [hkc, hmap]
    · simp only [List.map_cons, List.foldl_cons]
      rw [hfold, hstep]
      simp [List.append_assoc]

/-- Folding the parser over the rendered output of a block list, starting
with an open file, turns each block into one parsed hunk with exactly the
block's rows. -/
theorem parse_blocks_fold (bs : List HunkBlock) :
    (∀ r ∈ blocksRows bs,
      (r.1 = LineKind.removed → "--".data.isPrefixOf r.2 = false) ∧
      (r.1 = LineKind.added → "++".data.isPrefixOf r.2 = false)) →
    ∀ (st : ParseState) (f : FileDiff), st.currentFile = some f →
      ∃ (hks : List Hunk) (f' : FileDiff) (res : ParseState),
        ((bs.map blockOuts).flatten.map renderOut).foldl parseStep st = res ∧
        (hks.map fun h => h.lines.map rowKC) = bs.map (·.rows) ∧
        res.files = st.files ∧
        res.currentFile = some f' ∧
        f'.hunks ++ res.currentHunk.toList =
          f.hunks ++ st.currentHunk.toList ++ hks := by
  induction bs with
  | nil =>
    intro _ st f hf
    exact ⟨[], f, st, by simp, rfl, rfl, hf, by simp⟩
  | cons b bs ih =>
    intro hok st f hf
    have hokb : ∀ r ∈ b.rows,
        (r.1 = LineKind.removed → "--".data.isPrefixOf r.2 = false) ∧
        (r.1 = LineKind.added → "++".data.isPrefixOf r.2 = false) := by
      intro r hr
      refine hok r ?_
      simp only [blocksRows, List.map_cons, List.flatten_cons]
      exact List.mem_append.mpr (.inl hr)
    have hokrest : ∀ r ∈ blocksRows bs,
        (r.1 = LineKind.removed → "--".data.isPrefixOf r.2 = false) ∧
        (r.1 = LineKind.added → "++".data.isPrefixOf r.2 = false) := by
      intro r hr
      refine hok r ?_
      rw [show (b :: bs) = [b] ++ bs from rfl, blocksRows_append]
      exact List.mem_append.mpr (.inr hr)
    obtain ⟨ol, nl, hhd⟩ :=
      parseStep_header st f hf b.oldStart b.oldLen b.newStart b.newLen
    obtain ⟨lns, ol2, nl2, hmap0, hfold⟩ :=
      parse_rows_fold b.rows hokb
        (parseStep st
          (renderOut (Out.header b.oldStart b.oldLen b.newStart b.newLen)))
        ⟨ol, nl, []⟩ (by rw [hhd])
    obtain ⟨hks, f', res, hfold3, hmap, hfiles, hcf, hhunks⟩ :=
      ih hokrest
        ((b.rows.map fun r => renderOut (Out.row r.1 r.2)).foldl parseStep
          (parseStep st
            (renderOut (Out.header b.oldStart b.oldLen b.newStart b.newLen))))
        { path := f.path, hunks := f.hunks ++ st.currentHunk.toList }
        (by rw [hfold, hhd])
    refine ⟨⟨ol, nl, lns⟩ :: hks, f', res, ?_, ?_, ?_, hcf, ?_⟩
    · simp only [List.map_cons, List.flatten_cons, List.map_append,
        List.foldl_append, blockOuts, List.foldl_cons]
      rw [show (rowOuts b.rows).map renderOut =
        b.rows.map fun r => renderOut (Out.row r.1 r.2) by
          simp [rowOuts, List.map_map]]
      exact hfold3
    · simp only [List.map_cons, hmap0, hmap]
    · rw [hfiles, hfold, hhd]
    · rw [hhunks, hfold, hhd]
      simp [List.append_assoc]

theorem getLast?_append_right (xs l : Chars) (hl : l ≠ []) :
    (xs ++ l).getLast? = l.getLast? := by
  induction xs with
  | nil => rfl
  | cons x xs ih =>
    cases hxs : xs ++ l with
    | nil => exact absurd (List.append_eq_nil.mp hxs).2 hl
    | cons y ys =>
      rw [List.cons_append, hxs, List.getLast?_cons_cons, ← hxs, ih]

/-- The rendered hunk header contains no newline. -/
theorem header_no_nl (a b c d : Nat) :
    '\n' ∉ renderOut (Out.header a b c d) := by
  intro h
  simp only [renderOut, List.mem_append] at h
  rcases h with ((((((((h | h) | h) | h) | h) | h) | h) | h) | h)
  · exact absurd h (by decide)
  · exact absurd rfl (digit_ne_nl (natDigits_mem a '\n' h))
  · exact absurd h (by decide)
  · exact absurd rfl (digit_ne_nl (natDigits_mem b '\n' h))
  · exact absurd h (by decide)
  · exact absurd rfl (digit_ne_nl (natDigits_mem c '\n' h))
  · exact absurd h (by decide)
  · exact absurd rfl (digit_ne_nl (natDigits_mem d '\n' h))
  · exact absurd h (by decide)

/-- The rendered hunk header ends in `@`. -/
theorem header_last (a b c d : Nat) :
    (renderOut (Out.header a b c d)).getLast? = some '@' := by
  show (("@@ -".data ++ natDigits a ++ [','] ++ natDigits b ++ " +".data ++
    natDigits c ++ [','] ++ natDigits d) ++ " @@".data).getLast? = some '@'
  rw [getLast?_append_right _ _ (by decide)]
  rfl

/-- A rendered diff row is newline-free and does not end in a carriage
return when its content is. -/
theorem row_render_ok (k : LineKind) (content : Chars) (hnl : '\n' ∉ content)
    (hcr : content.getLast? ≠ some '\r') :
    '\n' ∉ renderOut (Out.row k content) ∧
    (renderOut (Out.row k content)).getLast? ≠ some '\r' := by
  have hmk : ∃ c, renderOut (Out.row k content) = c :: content ∧
      c ≠ '\n' ∧ c ≠ '\r' := by
    cases k
    · exact ⟨' ', rfl, by decide, by decide⟩
    · exact ⟨'+', rfl, by decide, by decide⟩
    · exact ⟨'-', rfl, by decide, by decide⟩
  obtain ⟨c, hc, hcnl, hccr⟩ := hmk
  rw [hc]
  constructor
  · intro h
    rcases List.mem_cons.mp h with h | h
    · exact hcnl h.symm
    · exact hnl h
  · cases hcont : content with
    | nil =>
      intro h
      simp only [List.getLast?_singleton, Option.some.injEq] at h
      exact hccr h
    | cons x xs =>
      rw [List.getLast?_cons_cons]
      rw [hcont] at hcr
      exact hcr

/-- A raw line ending in a path keeps the path's last character (or the
prefix's, for an empty path). -/
theorem rawPathLine_ok (xs path : Chars) (hxs_nl : '\n' ∉ xs)
    (hxs_cr : xs.getLast? ≠ some '\r')
    (hnl : '\n' ∉ path) (hcr : path.getLast? ≠ some '\r') :
    '\n' ∉ (xs ++ path) ∧ (xs ++ path).getLast? ≠ some '\r' := by
  constructor
  · intro h
    rcases List.mem_append.mp h with h | h
    · exact hxs_nl h
    · exact hnl h
  · cases hp : path with
    | nil => simpa using hxs_cr
    | cons c cs =>
      rw [getLast?_append_right xs (c :: cs) (by simp)]
      rw [hp] at hcr
      exact hcr

theorem removedOfRows_blocksRows (bs : List HunkBlock) :
    removedOfRows (blocksRows bs) = blocksRemoved bs := by
  induction bs with
  | nil => rfl
  | cons b bs ih =>
    rw [show blocksRows (b :: bs) = b.rows ++ blocksRows bs by
      simp [blocksRows], removedOfRows_append, ih]
    simp [blocksRemoved]

theorem addedOfRows_blocksRows (bs : List HunkBlock) :
    addedOfRows (blocksRows bs) = blocksAdded bs := by
  induction bs with
  | nil => rfl
  | cons b bs ih =>
    rw [show blocksRows (b :: bs) = b.rows ++ blocksRows bs by
      simp [blocksRows], addedOfRows_append, ih]
    simp [blocksAdded]

theorem map_flatten_eq {α β : Type} (f : α → β) (L : List (List α)) :
    L.flatten.map f = (L.map (List.map f)).flatten := by
  induction L with
  | nil => rfl
  | cons l L ih => simp [ih]

/-- Outside its degenerate branches, `format_hunk` appends a block-structured
output whose blocks carry exactly the differing lines of the segmentation,
with every row satisfying the scan predicate. -/
theorem formatHunkSegs_blocks (segs : List DiffSeg) (old new : String)
    (outs0 : List Out) (P : LineKind × Chars → Prop)
    (h0 : outs0 ≠ [])
    (hget : ∀ l ∈ rustLinesCore old.data, P (.context, l))
    (hsegs : ∀ seg ∈ segs,
      (∀ l ∈ (match seg with | DiffSeg.matching ls => ls | _ => []),
        P (.context, l)) ∧
      (∀ l ∈ segOldDiff seg, P (.removed, l)) ∧
      (∀ l ∈ segNewDiff seg, P (.added, l))) :
    ∃ bs : List HunkBlock,
      formatHunkSegs segs old new outs0 =
        outs0 ++ (bs.map blockOuts).flatten ∧
      blocksRemoved bs = oldDiffLines segs ∧
      blocksAdded bs = newDiffLines segs ∧
      (∀ r ∈ blocksRows bs, P r) := by
  have hinv := fmt_scan_inv outs0 P (rustLinesCore old.data) hget segs
    (fmtInit outs0) [] [] (fmtInv_init outs0 P) hsegs
  obtain ⟨bs, hout, hbs, hcnt, hpend, hrem, hadd, hP, hemp⟩ := hinv
  rw [List.nil_append] at hrem hadd
  set st := segs.foldl (fmtStep (rustLinesCore old.data)) (fmtInit outs0)
    with hst
  have hres : formatHunkSegs segs old new outs0 =
      (if st.inHunk then st.out ++ mkHeader st :: rowOuts st.pending
       else st.out) := by
    have hne : (if st.inHunk then st.out ++ mkHeader st :: rowOuts st.pending
        else st.out) ≠ [] := by
      split
      · simp [hout]
      · simp [hout, h0]
    unfold formatHunkSegs
    dsimp only
    rw [← hst]
    by_cases hearly : segs = [] ∨ (old = "" ∧ new = "")
    · rw [if_pos hearly]
    · rw [if_neg hearly, if_neg (fun h => hne h.1)]
  by_cases hin : st.inHunk = true
  · obtain ⟨hoc, hnc⟩ := hcnt hin
    refine ⟨bs ++ [(⟨if st.hunkOldStart = 0 then 0 else st.hunkOldStart,
      st.hunkOldCount, if st.hunkNewStart = 0 then 0 else st.hunkNewStart,
      st.hunkNewCount, st.pending⟩ : HunkBlock)], ?_, ?_, ?_, ?_⟩
    · rw [hres, if_pos hin, hout]
      simp [blockOuts, mkHeader, List.append_assoc]
    · rw [blocksRemoved_append, blocksRemoved_singleton]
      exact hrem
    · rw [blocksAdded_append, blocksAdded_singleton]
      exact hadd
    · intro r hr
      rw [blocksRows_append, blocksRows_singleton] at hr
      exact hP r hr
  · have hpnil := hpend (by simpa using hin)
    refine ⟨bs, ?_, ?_, ?_, ?_⟩
    · rw [hres, if_neg hin, hout]
    · rw [← hrem, hpnil, removedOfRows_nil, List.append_nil]
    · rw [← hadd, hpnil, addedOfRows_nil, List.append_nil]
    · intro r hr
      exact hP r (List.mem_append.mpr (.inl hr))

/-- Parsing the rendered text of a `diff --git` line, two meta lines and a
block-structured body recovers exactly the blocks' removed and added
contents. -/
theorem parse_dg_blocks (p m1 m2 : Chars) (bs : List HunkBlock)
    (hm1 : "diff --git".data.isPrefixOf m1 = false ∧
      "@@".data.isPrefixOf m1 = false)
    (hm2 : "diff --git".data.isPrefixOf m2 = false ∧
      "@@".data.isPrefixOf m2 = false)
    (hok : ∀ r ∈ blocksRows bs,
      (r.1 = LineKind.removed → "--".data.isPrefixOf r.2 = false) ∧
      (r.1 = LineKind.added → "++".data.isPrefixOf r.2 = false)) :
    removedContents (parseLines
      (([Out.raw ("diff --git a/".data ++ p ++ " b/".data ++ p),
         Out.raw m1, Out.raw m2] ++ (bs.map blockOuts).flatten).map
        renderOut)) = blocksRemoved bs ∧
    addedContents (parseLines
      (([Out.raw ("diff --git a/".data ++ p ++ " b/".data ++ p),
         Out.raw m1, Out.raw m2] ++ (bs.map blockOuts).flatten).map
        renderOut)) = blocksAdded bs := by
  obtain ⟨p', hdg⟩ := parseStep_init_dg p
  obtain ⟨hks, f', res, hfold, hmap, hfiles, hcf, hhunks⟩ :=
    parse_blocks_fold bs hok ⟨[], some ⟨p', []⟩, none, 0, 0⟩ ⟨p', []⟩ rfl
  have hsteps : parseLines
      (([Out.raw ("diff --git a/".data ++ p ++ " b/".data ++ p),
         Out.raw m1, Out.raw m2] ++ (bs.map blockOuts).flatten).map
        renderOut) = parseFinish res := by
    unfold parseLines
    congr 1
    rw [List.map_append, List.foldl_append]
    simp only [List.map_cons, List.map_nil, List.foldl_cons, List.foldl_nil,
      renderOut]
    rw [hdg]
    rw [parseStep_meta_noop _ m1 hm1.1 hm1.2 rfl]
    rw [parseStep_meta_noop _ m2 hm2.1 hm2.2 rfl]
    exact hfold
  have hfile : ∃ file : FileDiff, parseFinish res = ⟨[file]⟩ ∧
      file.hunks = hks := by
    unfold parseFinish
    simp only [hcf]
    cases hch : res.currentHunk with
    | some h =>
      refine ⟨⟨f'.path, f'.hunks ++ [h]⟩, ?_, ?_⟩
      · simp [hfiles]
      · rw [hch] at hhunks
        simpa using hhunks
    | none =>
      refine ⟨f', ?_, ?_⟩
      · simp [hfiles]
      · rw [hch] at hhunks
        simpa using hhunks
  obtain ⟨file, hpf, hfh⟩ := hfile
  have hrows : diffRows (⟨[file]⟩ : Diff) = blocksRows bs := by
    unfold diffRows blocksRows
    simp only [List.map_cons, List.map_nil, List.flatten_cons,
      List.flatten_nil, List.append_nil, map_flatten_eq, List.map_map,
      Function.comp, hfh]
    exact congrArg List.flatten hmap
  rw [hsteps, hpf]
  exact ⟨by unfold removedContents; rw [hrows, removedOfRows_blocksRows],
    by unfold addedContents; rw [hrows, addedOfRows_blocksRows]⟩

/-- C2 (amended): for any path and any well-formed segmentation of two
distinct blobs, provided no content line ends in a carriage return, no
removed line starts with `--` and no added line starts with `++`,
formatting (`format_diff_entry` over `format_hunk`) and then parsing
(`Diff::parse`) reproduces exactly the removed and added line contents of
the line-level difference; context rows and lines violating these
conditions are not faithfully reproduced. -/
theorem c2_format_parse_roundtrip (path : Chars) (old new : String)
    (segs : List DiffSeg)
    (hwf : wfSegs segs (rustLinesCore old.data) (rustLinesCore new.data))
    (hne : old ≠ new)
    (hcrOld : ∀ l ∈ rustLinesCore old.data, l.getLast? ≠ some '\r')
    (hcrNew : ∀ l ∈ rustLinesCore new.data, l.getLast? ≠ some '\r')
    (hdd : ∀ l ∈ oldDiffLines segs, "--".data.isPrefixOf l = false)
    (hpp : ∀ l ∈ newDiffLines segs, "++".data.isPrefixOf l = false)
    (hpnl : '\n' ∉ path) (hpcr : path.getLast? ≠ some '\r') :
    removedContents (Diff.parse ⟨renderText
      (formatDiffEntry path (some old) (some new) segs [])⟩) =
      oldDiffLines segs ∧
    addedContents (Diff.parse ⟨renderText
      (formatDiffEntry path (some old) (some new) segs [])⟩) =
      newDiffLines segs := by
  have hPold : ∀ l ∈ rustLinesCore old.data,
      '\n' ∉ l ∧ l.getLast? ≠ some '\r' := fun l hl =>
    ⟨rustLinesCore_no_nl old.data l hl, hcrOld l hl⟩
  have hPnew : ∀ l ∈ rustLinesCore new.data,
      '\n' ∉ l ∧ l.getLast? ≠ some '\r' := fun l hl =>
    ⟨rustLinesCore_no_nl new.data l hl, hcrNew l hl⟩
  obtain ⟨bs, hfmt, hbr, hba, hPb⟩ := formatHunkSegs_blocks segs old new
    [Out.raw ("diff --git a/".data ++ path ++ " b/".data ++ path),
     Out.raw ("--- a/".data ++ path), Out.raw ("+++ b/".data ++ path)]
    (fun r => '\n' ∉ r.2 ∧ r.2.getLast? ≠ some '\r' ∧
      (r.1 = LineKind.removed → "--".data.isPrefixOf r.2 = false) ∧
      (r.1 = LineKind.added → "++".data.isPrefixOf r.2 = false))
    (by simp)
    (fun l hl => ⟨(hPold l hl).1, (hPold l hl).2, by simp, by simp⟩)
    (by
      intro seg hseg
      have hOldSub : ∀ l ∈ segOldLines seg, l ∈ rustLinesCore old.data := by
        intro l hl
        rw [← hwf.1]
        exact List.mem_flatten.mpr
          ⟨segOldLines seg, List.mem_map_of_mem _ hseg, hl⟩
      have hNewSub : ∀ l ∈ segNewLines seg, l ∈ rustLinesCore new.data := by
        intro l hl
        rw [← hwf.2]
        exact List.mem_flatten.mpr
          ⟨segNewLines seg, List.mem_map_of_mem _ hseg, hl⟩
      refine ⟨?_, ?_, ?_⟩
      · intro l hl
        cases seg with
        | matching ls =>
          have hmm := hPold l (hOldSub l hl)
          exact ⟨hmm.1, hmm.2, by simp, by simp⟩
        | different o n => exact absurd hl (List.not_mem_nil l)
      · intro l hl
        have hin : l ∈ segOldLines seg := by
          cases seg with
          | matching ls => exact absurd hl (List.not_mem_nil l)
          | different o n => exact hl
        have hmm := hPold l (hOldSub l hin)
        have hdl : l ∈ oldDiffLines segs :=
          List.mem_flatten.mpr ⟨segOldDiff seg, List.mem_map_of_mem _ hseg, hl⟩
        exact ⟨hmm.1, hmm.2, fun _ => hdd l hdl, by simp⟩
      · intro l hl
        have hin : l ∈ segNewLines seg := by
          cases seg with
          | matching ls => exact absurd hl (List.not_mem_nil l)
          | different o n => exact hl
        have hmm := hPnew l (hNewSub l hin)
        have hdl : l ∈ newDiffLines segs :=
          List.mem_flatten.mpr ⟨segNewDiff seg, List.mem_map_of_mem _ hseg, hl⟩
        exact ⟨hmm.1, hmm.2, by simp, fun _ => hpp l hdl⟩)
  have hentry : formatDiffEntry path (some old) (some new) segs [] =
      [Out.raw ("diff --git a/".data ++ path ++ " b/".data ++ path),
       Out.raw ("--- a/".data ++ path), Out.raw ("+++ b/".data ++ path)] ++
      (bs.map blockOuts).flatten := by
    show (if old ≠ new then
        formatHunkSegs segs old new ([] ++
          [Out.raw ("diff --git a/".data ++ path ++ " b/".data ++ path),
           Out.raw ("--- a/".data ++ path),
           Out.raw ("+++ b/".data ++ path)])
      else []) = _
    rw [if_pos hne]
    exact hfmt
  have houts : rustLinesCore (renderText (formatDiffEntry path (some old)
      (some new) segs [])) =
      (formatDiffEntry path (some old) (some new) segs []).map renderOut := by
    apply renderText_lines
    intro o ho
    rw [hentry] at ho
    rcases List.mem_append.mp ho with ho | ho
    · rcases List.mem_cons.mp ho with rfl | ho
      · refine rawPathLine_ok ("diff --git a/".data ++ path ++ " b/".data)
          path ?_ ?_ hpnl hpcr
        · intro h
          rcases List.mem_append.mp h with h | h
          · rcases List.mem_append.mp h with h | h
            · exact absurd h (by decide)
            · exact hpnl h
          · exact absurd h (by decide)
        · rw [getLast?_append_right _ _ (show " b/".data ≠ [] by decide)]
          decide
      rcases List.mem_cons.mp ho with rfl | ho
      · exact rawPathLine_ok "--- a/".data path (by decide) (by decide)
          hpnl hpcr
      rcases List.mem_cons.mp ho with rfl | ho
      · exact rawPathLine_ok "+++ b/".data path (by decide) (by decide)
          hpnl hpcr
      · exact absurd ho (List.not_mem_nil o)
    · obtain ⟨l, hlmem, holmem⟩ := List.mem_flatten.mp ho
      obtain ⟨b, hb, rfl⟩ := List.mem_map.mp hlmem
      rcases List.mem_cons.mp holmem with rfl | ho2
      · exact ⟨header_no_nl _ _ _ _, by rw [header_last]; decide⟩
      · obtain ⟨r, hr, rfl⟩ := List.mem_map.mp ho2
        have hPr := hPb r
          (List.mem_flatten.mpr ⟨b.rows, List.mem_map_of_mem _ hb, hr⟩)
        exact row_render_ok r.1 r.2 hPr.1 hPr.2.1
  have hm1a : "diff --git".data.isPrefixOf ("--- a/".data ++ path) = false :=
    isPrefixOf_head_ne (show "diff --git".data.head? = some 'd' from rfl)
      (show '-' ≠ 'd' by decide) ("-- a/".data ++ path)
  have hm1b : "@@".data.isPrefixOf ("--- a/".data ++ path) = false :=
    isPrefixOf_head_ne (show "@@".data.head? = some '@' from rfl)
      (show '-' ≠ '@' by decide) ("-- a/".data ++ path)
  have hm2a : "diff --git".data.isPrefixOf ("+++ b/".data ++ path) = false :=
    isPrefixOf_head_ne (show "diff --git".data.head? = some 'd' from rfl)
      (show '+' ≠ 'd' by decide) ("++ b/".data ++ path)
  have hm2b : "@@".data.isPrefixOf ("+++ b/".data ++ path) = false :=
    isPrefixOf_head_ne (show "@@".data.head? = some '@' from rfl)
      (show '+' ≠ '@' by decide) ("++ b/".data ++ path)
  have hparse := parse_dg_blocks path ("--- a/".data ++ path)
    ("+++ b/".data ++ path) bs ⟨hm1a, hm1b⟩ ⟨hm2a, hm2b⟩
    (fun r hr => ⟨(hPb r hr).2.2.1, (hPb r hr).2.2.2⟩)
  have hfinal : Diff.parse ⟨renderText (formatDiffEntry path (some old)
      (some new) segs [])⟩ = parseLines
      (([Out.raw ("diff --git a/".data ++ path ++ " b/".data ++ path),
         Out.raw ("--- a/".data ++ path), Out.raw ("+++ b/".data ++ path)] ++
        (bs.map blockOuts).flatten).map renderOut) := by
    unfold Diff.parse
    rw [show (⟨renderText (formatDiffEntry path (some old) (some new)
      segs [])⟩ : String).data =
      renderText (formatDiffEntry path (some old) (some new) segs [])
      from rfl]
    rw [houts, hentry]
  rw [hfinal]
  exact ⟨hparse.1.trans hbr, hparse.2.trans hba⟩

/-- Witness: the round-trip theorem applied to the one-line change
`"a\n" → "b\n"`. -/
theorem c2_format_parse_roundtrip_witness :
    removedContents (Diff.parse ⟨renderText (formatDiffEntry ['p']
      (some "a\n") (some "b\n") [DiffSeg.different [['a']] [['b']]] [])⟩) =
      oldDiffLines [DiffSeg.different [['a']] [['b']]] ∧
    addedContents (Diff.parse ⟨renderText (formatDiffEntry ['p']
      (some "a\n") (some "b\n") [DiffSeg.different [['a']] [['b']]] [])⟩) =
      newDiffLines [DiffSeg.different [['a']] [['b']]] :=
  c2_format_parse_roundtrip ['p'] "a\n" "b\n"
    [DiffSeg.different [['a']] [['b']]] (by decide) (by decide) (by decide)
    (by decide) (by decide) (by decide) (by decide) (by decide)

/-- C2 counterexample: the format-then-parse round trip does not reproduce
the line difference in general.  (a) A removed line starting with `--`
renders as a `---`-prefixed line, which the parser drops, so the removed
content is lost.  (b) A shared line (`e`) lying between two changes inside
one hunk is not reproduced as a context row: the formatter emits at most
`CONTEXT_LINES` trailing context lines per matching gap, so the fourth gap
line vanishes even though neighbouring rows of the same hunk survive.
(c) A line whose content ends in `\r` is emitted verbatim, and the parser's
line splitting strips the `\r`, so the content comes back altered. -/
theorem c2_roundtrip_counterexample :
    (wfSegs [DiffSeg.different [['-', '-', 'a']] [['b']]]
        (rustLinesCore "--a\n".data) (rustLinesCore "b\n".data) ∧
      ("--a\n" : String) ≠ "b\n" ∧
      removedContents (Diff.parse ⟨renderText (formatDiffEntry ['p']
        (some "--a\n") (some "b\n")
        [DiffSeg.different [['-', '-', 'a']] [['b']]] [])⟩) ≠
        oldDiffLines [DiffSeg.different [['-', '-', 'a']] [['b']]]) ∧
    (wfSegs [DiffSeg.different [['x']] [['X']],
        DiffSeg.matching [['b'], ['c'], ['d'], ['e']],
        DiffSeg.different [['y']] [['Y']]]
        (rustLinesCore "x\nb\nc\nd\ne\ny\n".data)
        (rustLinesCore "X\nb\nc\nd\ne\nY\n".data) ∧
      ("x\nb\nc\nd\ne\ny\n" : String) ≠ "X\nb\nc\nd\ne\nY\n" ∧
      ['e'] ∈ rustLinesCore "x\nb\nc\nd\ne\ny\n".data ∧
      ['e'] ∈ rustLinesCore "X\nb\nc\nd\ne\nY\n".data ∧
      (LineKind.context, ['d']) ∈ diffRows (Diff.parse ⟨renderText
        (formatDiffEntry ['p'] (some "x\nb\nc\nd\ne\ny\n")
          (some "X\nb\nc\nd\ne\nY\n")
          [DiffSeg.different [['x']] [['X']],
           DiffSeg.matching [['b'], ['c'], ['d'], ['e']],
           DiffSeg.different [['y']] [['Y']]] [])⟩) ∧
      (LineKind.removed, ['y']) ∈ diffRows (Diff.parse ⟨renderText
        (formatDiffEntry ['p'] (some "x\nb\nc\nd\ne\ny\n")
          (some "X\nb\nc\nd\ne\nY\n")
          [DiffSeg.different [['x']] [['X']],
           DiffSeg.matching [['b'], ['c'], ['d'], ['e']],
           DiffSeg.different [['y']] [['Y']]] [])⟩) ∧
      (LineKind.context, ['e']) ∉ diffRows (Diff.parse ⟨renderText
        (formatDiffEntry ['p'] (some "x\nb\nc\nd\ne\ny\n")
          (some "X\nb\nc\nd\ne\nY\n")
          [DiffSeg.different [['x']] [['X']],
           DiffSeg.matching [['b'], ['c'], ['d'], ['e']],
           DiffSeg.different [['y']] [['Y']]] [])⟩)) ∧
    (wfSegs [DiffSeg.different [['x', '\r']] [['y']]]
        (rustLinesCore "x\r\r\n".data) (rustLinesCore "y\n".data) ∧
      ("x\r\r\n" : String) ≠ "y\n" ∧
      removedContents (Diff.parse ⟨renderText (formatDiffEntry ['p']
        (some "x\r\r\n") (some "y\n")
        [DiffSeg.different [['x', '\r']] [['y']]] [])⟩) ≠
        oldDiffLines [DiffSeg.different [['x', '\r']] [['y']]]) := by
  refine ⟨⟨by decide, by decide, by decide⟩,
    ⟨by decide, by decide, by decide, by decide, by decide, by decide,
      by decide⟩,
    ⟨by decide, by decide, by decide⟩⟩

/-- C9 counterexample: when the segmentation produces no hunks and the two
texts differ, `format_hunk` emits nothing at all — the
`if hunks.is_empty() { return }` guard runs before the whole-content
fallback, so no hunk covering the content is produced. -/
theorem c9_empty_segmentation_counterexample :
    formatHunkSegs [] "a\n" "b\n" [] = [] ∧ ("a\n" : String) ≠ "b\n" := by
  exact ⟨rfl, by decide⟩

/-- C9 (amended): when the segmentation produces no hunks, `format_hunk`
returns without emitting anything, even for differing texts; the
whole-content fallback fires only when the segmentation is non-empty, the
texts are not both empty, the scan emitted nothing and the output buffer
(including any previously written file headers) is empty — as when a
non-empty all-matching segmentation is passed for two line-identical but
textually distinct blobs. -/
theorem c9_no_hunks_emits_nothing :
    (∀ (old new : String) (output : List Out), old ≠ new →
      formatHunkSegs [] old new output = output) ∧
    formatHunkSegs [.matching ["a".data]] "a" "a\n" [] =
      [Out.header 1 1 1 1,
       Out.row .removed "a".data, Out.row .added "a".data] := by
  constructor
  · intro old new output _
    rfl
  · rfl

/-- C9 witness: the no-hunks case evaluated on distinct concrete blobs with
a non-empty output buffer. -/
theorem c9_no_hunks_emits_nothing_witness :
    formatHunkSegs [] "x\n" "y\n" [Out.raw "h".data] = [Out.raw "h".data] :=
  c9_no_hunks_emits_nothing.1 "x\n" "y\n" [Out.raw "h".data] (by decide)

/-! ### Helper lemmas on the string primitives -/

theorem dropWhile_append_single {α : Type} (p : α → Bool) (l : List α) (c : α)
    (hc : p c = false) :
    List.dropWhile p (l ++ [c]) = List.dropWhile p l ++ [c] := by
  induction l with
  | nil => simp [List.dropWhile, hc]
  | cons x xs ih =>
    by_cases hx : p x
    · simp [List.dropWhile, hx, ih]
    · simp [List.dropWhile, hx]

/-- Trimming does not remove a non-whitespace head character. -/
theorem trimChars_cons_head (c : Char) (t : Chars)
    (hc : c.isWhitespace = false) :
    (trimChars (c :: t)).head? = some c := by
  unfold trimChars
  have h1 : List.dropWhile Char.isWhitespace (c :: t) = c :: t := by
    simp [List.dropWhile, hc]
  rw [h1]
  have h2 : (c :: t).reverse = t.reverse ++ [c] := by simp
  rw [h2, dropWhile_append_single _ _ _ hc]
  simp

/-- A trimmed string with a `-` head still has a `-` head after the second
trim performed inside `validate_ref_format`. -/
theorem trim_trim_dash (s : String)
    (h : (trimChars s.data).head? = some '-') :
    (trimChars (trimStr s).data).head? = some '-' := by
  obtain ⟨t, ht⟩ : ∃ t, trimChars s.data = '-' :: t := by
    cases hcase : trimChars s.data with
    | nil => simp [hcase] at h
    | cons a t =>
      rw [hcase] at h
      simp at h
      exact ⟨t, by rw [h]⟩
  show (trimChars (trimChars s.data)).head? = some '-'
  rw [ht]
  exact trimChars_cons_head _ _ (by decide)

/-- `validate_ref_format` rejects a reference whose trimmed form begins
with `-`. -/
theorem validate_ref_format_dash (s : String)
    (h : (trimChars s.data).head? = some '-') :
    validate_ref_format s =
      .error (.InvalidRef ("references cannot start with '-': " ++ s)) := by
  unfold validate_ref_format
  simp [h]

/-- `validate_ref_format` only ever produces `InvalidRef` errors. -/
theorem validate_ref_format_cases (s : String) :
    validate_ref_format s = .ok () ∨
      ∃ m, validate_ref_format s = .error (.InvalidRef m) := by
  unfold validate_ref_format
  split
  · exact .inr ⟨_, rfl⟩
  · exact .inl rfl

/-- Every result list of `splitOnSubAux` starts with a segment extending
the pending accumulator. -/
theorem splitOnSubAux_head (pat : Chars) :
    ∀ (fuel : Nat) (xs acc : Chars),
      ∃ t, (splitOnSubAux pat fuel xs acc).head? = some (acc.reverse ++ t) := by
  intro fuel
  induction fuel with
  | zero => intro xs acc; exact ⟨xs, rfl⟩
  | succ fuel ih =>
    intro xs acc
    cases xs with
    | nil => exact ⟨[], by simp [splitOnSubAux]⟩
    | cons c cs =>
      by_cases hp : pat.isPrefixOf (c :: cs)
      · exact ⟨[], by simp [splitOnSubAux, hp]⟩
      · obtain ⟨t, ht⟩ := ih cs (c :: acc)
        exact ⟨c :: t, by simp [splitOnSubAux, hp, ht]⟩

/-- When the pattern does not match at the start, the first split segment
begins with the first input character. -/
theorem splitOnSub_head_cons (pat : Chars) (c : Char) (cs : Chars)
    (hp : pat.isPrefixOf (c :: cs) = false) :
    ∃ t, (splitOnSub pat (c :: cs)).head? = some (c :: t) := by
  unfold splitOnSub
  obtain ⟨t, ht⟩ := splitOnSubAux_head pat cs.length cs [c]
  exact ⟨t, by simp [splitOnSubAux, hp, ht]⟩

/-- `gitGetChangedFiles` rejects a leading-dash reference in all of its
branches, without consulting the oracle. -/
theorem gitGetChangedFiles_dash (o : GitOracle) (r : String)
    (hr : (trimChars r.data).head? = some '-') :
    (gitGetChangedFiles o r).2 = [] ∧
      ∃ m, (gitGetChangedFiles o r).1 = .error (.InvalidRef m) := by
  have hr2 := trim_trim_dash r hr
  have hsingle := validate_ref_format_dash (trimStr r) hr2
  obtain ⟨t, ht⟩ : ∃ t, (trimStr r).data = '-' :: t := by
    have h' : (trimStr r).data.head? = some '-' := hr
    cases hcase : (trimStr r).data with
    | nil => rw [hcase] at h'; simp at h'
    | cons a u =>
      rw [hcase] at h'
      simp at h'
      exact ⟨u, by rw [h']⟩
  have hpart : ∀ sep : String, sep.data.head? = some '.' →
      ∃ m, validate_ref_format ((strSplit (trimStr r) sep).head?.getD "") =
        .error (.InvalidRef m) := by
    intro sep hsep
    have hpfx : sep.data.isPrefixOf ('-' :: t) = false := by
      cases hsd : sep.data with
      | nil => rw [hsd] at hsep; simp at hsep
      | cons a u =>
        rw [hsd] at hsep
        simp at hsep
        simp [List.isPrefixOf, hsep]
    obtain ⟨t₀, ht₀⟩ := splitOnSub_head_cons sep.data '-' t hpfx
    have hhead : (strSplit (trimStr r) sep).head?.getD "" = ⟨'-' :: t₀⟩ := by
      unfold strSplit
      rw [ht]
      cases hq : splitOnSub sep.data ('-' :: t) with
      | nil => rw [hq] at ht₀; simp at ht₀
      | cons q qs =>
        rw [hq] at ht₀
        simp at ht₀
        simp [ht₀]
    rw [hhead]
    refine ⟨_, validate_ref_format_dash _ ?_⟩
    exact trimChars_cons_head _ _ (by decide)
  unfold gitGetChangedFiles
  by_cases hdot : strContains (trimStr r) ".."
  · simp only [hdot, if_true]
    by_cases hddd : strContains (trimStr r) "..."
    · simp only [hddd, if_true]
      by_cases hlen : (strSplit (trimStr r) "...").length = 2
      · obtain ⟨m, hm⟩ := hpart "..." rfl
        simp [hlen, hm]
      · simp [hlen, hsingle]
    · simp only [hddd, if_false]
      by_cases hlen : (strSplit (trimStr r) "..").length = 2
      · obtain ⟨m, hm⟩ := hpart ".." rfl
        simp [hlen, hm]
      · simp [hlen, hsingle]
  · simp [hdot, hsingle]

/-- C5 (amended): for every reference string whose trimmed form begins with
`-`, every reference-resolving operation of the git backend returns an
`InvalidRef` error with an empty native-call trace (no `revparse` is
attempted), whichever argument position carries the bad reference.  The jj
backend performs no such pre-validation (see the counterexample). -/
theorem c5_git_dash_rejected (o : GitOracle) (r s : String)
    (hr : (trimChars r.data).head? = some '-') :
    ((gitGetCommitResolve o r).2 = [] ∧
      ∃ m, (gitGetCommitResolve o r).1 = .error (.InvalidRef m)) ∧
    ((gitResolveRef o r).2 = [] ∧
      ∃ m, (gitResolveRef o r).1 = .error (.InvalidRef m)) ∧
    ((gitGetParentRefOrEmpty o r).2 = [] ∧
      ∃ m, (gitGetParentRefOrEmpty o r).1 = .error (.InvalidRef m)) ∧
    ((gitGetRangeDiffResolve o r s).2 = [] ∧
      ∃ m, (gitGetRangeDiffResolve o r s).1 = .error (.InvalidRef m)) ∧
    ((gitGetRangeDiffResolve o s r).2 = [] ∧
      ∃ m, (gitGetRangeDiffResolve o s r).1 = .error (.InvalidRef m)) ∧
    ((gitGetMergeBaseResolve o r s).2 = [] ∧
      ∃ m, (gitGetMergeBaseResolve o r s).1 = .error (.InvalidRef m)) ∧
    ((gitGetMergeBaseResolve o s r).2 = [] ∧
      ∃ m, (gitGetMergeBaseResolve o s r).1 = .error (.InvalidRef m)) ∧
    ((gitGetRangeChangedFiles o r s).2 = [] ∧
      ∃ m, (gitGetRangeChangedFiles o r s).1 = .error (.InvalidRef m)) ∧
    ((gitGetRangeChangedFiles o s r).2 = [] ∧
      ∃ m, (gitGetRangeChangedFiles o s r).1 = .error (.InvalidRef m)) ∧
    ((gitGetCommitsInRange o r s).2 = [] ∧
      ∃ m, (gitGetCommitsInRange o r s).1 = .error (.InvalidRef m)) ∧
    ((gitGetCommitsInRange o s r).2 = [] ∧
      ∃ m, (gitGetCommitsInRange o s r).1 = .error (.InvalidRef m)) ∧
    ((gitGetChangedFiles o r).2 = [] ∧
      ∃ m, (gitGetChangedFiles o r).1 = .error (.InvalidRef m)) := by
  have hr2 := trim_trim_dash r hr
  have hvt := validate_ref_format_dash (trimStr r) hr2
  have hvu := validate_ref_format_dash r hr
  refine ⟨?_, ?_, ?_, ?_, ?_, ?_, ?_, ?_, ?_, ?_, ?_, ?_⟩
  · exact ⟨by simp [gitGetCommitResolve, hvt],
      "references cannot start with '-': " ++ trimStr r,
      by simp [gitGetCommitResolve, hvt]⟩
  · exact ⟨by simp [gitResolveRef, hvt],
      "references cannot start with '-': " ++ trimStr r,
      by simp [gitResolveRef, hvt]⟩
  · exact ⟨by simp [gitGetParentRefOrEmpty, hvt],
      "references cannot start with '-': " ++ trimStr r,
      by simp [gitGetParentRefOrEmpty, hvt]⟩
  · exact ⟨by simp [gitGetRangeDiffResolve, hvu],
      "references cannot start with '-': " ++ r,
      by simp [gitGetRangeDiffResolve, hvu]⟩
  · rcases validate_ref_format_cases s with hs | ⟨m, hs⟩
    · exact ⟨by simp [gitGetRangeDiffResolve, hs, hvu],
        "references cannot start with '-': " ++ r,
        by simp [gitGetRangeDiffResolve, hs, hvu]⟩
    · exact ⟨by simp [gitGetRangeDiffResolve, hs], m,
        by simp [gitGetRangeDiffResolve, hs]⟩
  · exact ⟨by simp [gitGetMergeBaseResolve, hvt],
      "references cannot start with '-': " ++ trimStr r,
      by simp [gitGetMergeBaseResolve, hvt]⟩
  · rcases validate_ref_format_cases (trimStr s) with hs | ⟨m, hs⟩
    · exact ⟨by simp [gitGetMergeBaseResolve, hs, hvt],
        "references cannot start with '-': " ++ trimStr r,
        by simp [gitGetMergeBaseResolve, hs, hvt]⟩
    · exact ⟨by simp [gitGetMergeBaseResolve, hs], m,
        by simp [gitGetMergeBaseResolve, hs]⟩
  · exact ⟨by simp [gitGetRangeChangedFiles, hvt],
      "references cannot start with '-': " ++ trimStr r,
      by simp [gitGetRangeChangedFiles, hvt]⟩
  · rcases validate_ref_format_cases (trimStr s) with hs | ⟨m, hs⟩
    · exact ⟨by simp [gitGetRangeChangedFiles, hs, hvt],
        "references cannot start with '-': " ++ trimStr r,
        by simp [gitGetRangeChangedFiles, hs, hvt]⟩
    · exact ⟨by simp [gitGetRangeChangedFiles, hs], m,
        by simp [gitGetRangeChangedFiles, hs]⟩
  · exact ⟨by simp [gitGetCommitsInRange, hvt],
      "references cannot start with '-': " ++ trimStr r,
      by simp [gitGetCommitsInRange, hvt]⟩
  · rcases validate_ref_format_cases (trimStr s) with hs | ⟨m, hs⟩
    · exact ⟨by simp [gitGetCommitsInRange, hs, hvt],
        "references cannot start with '-': " ++ trimStr r,
        by simp [gitGetCommitsInRange, hs, hvt]⟩
    · exact ⟨by simp [gitGetCommitsInRange, hs], m,
        by simp [gitGetCommitsInRange, hs]⟩
  · exact gitGetChangedFiles_dash o r hr

/-- C5 witness: the git rejection evaluated at the concrete references
`-foo` / `main` with a concrete oracle. -/
theorem c5_git_dash_rejected_witness :
    ((trimChars "-foo".data).head? = some '-') ∧
    (gitGetCommitResolve ⟨fun _ => none, fun _ _ => [], fun _ _ => [],
        fun _ => none⟩ "-foo").2 = [] := by
  refine ⟨by decide, ?_⟩
  exact (c5_git_dash_rejected ⟨fun _ => none, fun _ _ => [], fun _ _ => [],
    fun _ => none⟩ "-foo" "main" (by decide)).1.1

/-- A jj oracle on which every revset parse and resolution succeeds. -/
def jjOkOracle : JjOracle :=
  { parse := fun _ => .ok ()
    resolveEval := fun _ => some ⟨"id0", "cid0", "s", 0, []⟩
    rangeWalk := fun _ => []
    rangeEntries := fun _ _ => [] }

/-- C5 counterexample: the jj backend hands the leading-dash reference
`-foo` straight to the native revset parser (non-empty call trace) and,
with a parser that accepts it, does not return `InvalidRef` at all. -/
theorem c5_jj_no_prevalidation_counterexample :
    (trimChars "-foo".data).head? = some '-' ∧
    (jjGetCommitResolve jjOkOracle "-foo").2 = ["-foo"] ∧
    (jjGetCommitResolve jjOkOracle "-foo").1 =
      .ok ⟨"id0", "cid0", "s", 0, []⟩ := by
  refine ⟨by decide, rfl, rfl⟩

/-- A git oracle whose only commit changes exactly `Cargo.lock`. -/
def gitLockOracle : GitOracle :=
  { revparse := fun _ =>
      some ⟨"abc123", "msg", 5, 1, [⟨some "Cargo.lock", some "Cargo.lock"⟩]⟩
    rangeDeltas := fun _ _ => [⟨some "Cargo.lock", some "Cargo.lock"⟩]
    revwalk := fun _ _ => []
    findCommit := fun _ => none }

/-- C3 counterexample: the git backend's `get_changed_files` (and
`get_range_changed_files`) return excluded paths unfiltered — a commit
touching only `Cargo.lock` yields `["Cargo.lock"]` even though
`should_exclude_path` excludes it. -/
theorem c3_git_listing_unfiltered_counterexample :
    (gitGetChangedFiles gitLockOracle "HEAD").1 = .ok ["Cargo.lock"] ∧
    (gitGetRangeChangedFiles gitLockOracle "A" "B").1 = .ok ["Cargo.lock"] ∧
    should_exclude_path "Cargo.lock" = true := by
  refine ⟨rfl, rfl, by decide⟩

/-- C3 (amended): the lockfile/`node_modules/` exclusion suppresses paths
from the diff output of both backends (lines of excluded deltas contribute
nothing, excluded jj entries are skipped) and from the jj backend's
changed-file listings; the git backend's `get_changed_files` /
`get_range_changed_files` listings are not filtered (see the
counterexample). -/
theorem c3_path_exclusion :
    (∀ lines : List GitDiffLine,
      gitDiffPrintOutput (lines.filter (fun l => ! gitLineExcluded l)) =
        gitDiffPrintOutput lines) ∧
    (∀ entries : List (String × Option String × Option String × List DiffSeg),
      jjGenerateDiff (entries.filter (fun e => ! should_exclude_path e.1)) =
        jjGenerateDiff entries) ∧
    (∀ (o : JjOracle) (reference : String) (fs : List String),
      (jjGetChangedFiles o reference).1 = .ok fs →
        ∀ p ∈ fs, should_exclude_path p = false) ∧
    (∀ (o : JjOracle) (fromRef toRef : String) (fs : List String),
      (jjGetRangeChangedFiles o fromRef toRef).1 = .ok fs →
        ∀ p ∈ fs, should_exclude_path p = false) := by
  have hgit : ∀ (init : String) (lines : List GitDiffLine),
      (lines.filter (fun l => ! gitLineExcluded l)).foldl gitDiffPrintStep
          init = lines.foldl gitDiffPrintStep init := by
    intro init lines
    induction lines generalizing init with
    | nil => rfl
    | cons l ls ih =>
      by_cases hl : gitLineExcluded l
      · have hstep : gitDiffPrintStep init l = init := by
          simp [gitDiffPrintStep, hl]
        simp [hl, hstep, ih]
      · simp [List.filter, hl, ih]
  have hjj : ∀ (init : List Out)
      (entries : List (String × Option String × Option String × List DiffSeg)),
      (entries.filter (fun e => ! should_exclude_path e.1)).foldl
          jjGenerateDiffStep init = entries.foldl jjGenerateDiffStep init := by
    intro init entries
    induction entries generalizing init with
    | nil => rfl
    | cons e es ih =>
      by_cases he : should_exclude_path e.1
      · have hstep : jjGenerateDiffStep init e = init := by
          simp [jjGenerateDiffStep, he]
        simp [he, hstep, ih]
      · simp [List.filter, he, ih]
  refine ⟨fun lines => hgit "" lines, fun entries => hjj [] entries, ?_, ?_⟩
  · intro o reference fs h p hp
    unfold jjGetChangedFiles at h
    cases hres : jjResolveSingleCommit o reference with
    | mk res tr =>
      rw [hres] at h
      cases res with
      | error e => simp at h
      | ok commit =>
        simp at h
        rw [← h] at hp
        have := List.mem_filter.mp hp
        simpa using this.2
  · intro o fromRef toRef fs h p hp
    unfold jjGetRangeChangedFiles at h
    cases hres : jjResolveSingleCommit o fromRef with
    | mk res tr =>
      rw [hres] at h
      cases res with
      | error e => simp at h
      | ok fromCommit =>
        cases hres2 : jjResolveSingleCommit o toRef with
        | mk res2 tr2 =>
          rw [hres2] at h
          cases res2 with
          | error e => simp at h
          | ok toCommit =>
            simp at h
            rw [← h] at hp
            have := List.mem_filter.mp hp
            simpa using this.2

/-- A jj oracle whose commit changes `src/main.rs` and `Cargo.lock`. -/
def jjMixedOracle : JjOracle :=
  { parse := fun _ => .ok ()
    resolveEval := fun _ =>
      some ⟨"id1", "cid1", "s", 3, ["Cargo.lock", "src/main.rs"]⟩
    rangeWalk := fun _ => []
    rangeEntries := fun _ _ => [] }

/-- C3 witness: the jj listing filter and the print-callback invariance
evaluated at concrete inputs. -/
theorem c3_path_exclusion_witness :
    should_exclude_path "src/main.rs" = false ∧
    gitDiffPrintOutput
        ([⟨some "Cargo.lock", some "Cargo.lock", '+', "x\n"⟩].filter
          (fun l => ! gitLineExcluded l)) =
      gitDiffPrintOutput [⟨some "Cargo.lock", some "Cargo.lock", '+', "x\n"⟩] := by
  constructor
  · exact c3_path_exclusion.2.2.1 jjMixedOracle "@" ["src/main.rs"] rfl
      "src/main.rs" (by decide)
  · exact c3_path_exclusion.1 [⟨some "Cargo.lock", some "Cargo.lock", '+', "x\n"⟩]

/-- C8: `Diff::parse` is total by construction (`parseLines` is a total
function on arbitrary input lines), and unrecognized lines do not
accumulate rows: any non-header line is a no-op when no hunk is open, any
line whose first character is not `+`, `-` or space (and which is not
empty) is a no-op in every state, and removing such a junk line anywhere
in the input leaves the parse result unchanged. -/
theorem c8_parse_tolerant :
    (∀ (st : ParseState) (line : Chars),
      "diff --git".data.isPrefixOf line = false →
      "@@".data.isPrefixOf line = false →
      st.currentHunk = none →
      parseStep st line = st) ∧
    (∀ (st : ParseState) (line : Chars),
      "diff --git".data.isPrefixOf line = false →
      "@@".data.isPrefixOf line = false →
      line ≠ [] →
      line.head? ≠ some '+' → line.head? ≠ some '-' → line.head? ≠ some ' ' →
      parseStep st line = st) ∧
    (∀ (pre post : List Chars) (junk : Chars),
      "diff --git".data.isPrefixOf junk = false →
      "@@".data.isPrefixOf junk = false →
      junk ≠ [] →
      junk.head? ≠ some '+' → junk.head? ≠ some '-' → junk.head? ≠ some ' ' →
      parseLines (pre ++ junk :: post) = parseLines (pre ++ post)) := by
  have h1 : ∀ (st : ParseState) (line : Chars),
      "diff --git".data.isPrefixOf line = false →
      "@@".data.isPrefixOf line = false →
      st.currentHunk = none →
      parseStep st line = st := by
    intro st line hdg hat hc
    unfold parseStep
    simp only [hdg, hat, Bool.false_eq_true, if_false, hc]
  have h2 : ∀ (st : ParseState) (line : Chars),
      "diff --git".data.isPrefixOf line = false →
      "@@".data.isPrefixOf line = false →
      line ≠ [] →
      line.head? ≠ some '+' → line.head? ≠ some '-' → line.head? ≠ some ' ' →
      parseStep st line = st := by
    intro st line hdg hat hne hp hm hs
    unfold parseStep
    simp only [hdg, hat, Bool.false_eq_true, if_false]
    cases hc : st.currentHunk with
    | none => rfl
    | some hunk => simp [hp, hm, hs, hne]
  refine ⟨h1, h2, ?_⟩
  intro pre post junk hdg hat hne hp hm hs
  unfold parseLines
  rw [show pre ++ junk :: post = (pre ++ [junk]) ++ post by simp,
    List.foldl_append, List.foldl_append, List.foldl_append]
  simp only [List.foldl_cons, List.foldl_nil]
  rw [h2 _ junk hdg hat hne hp hm hs]

/-- C8 witness: a stray hunk line before any header and a garbage line
inside a hunk are both ignored. -/
theorem c8_parse_tolerant_witness :
    parseStep ParseState.init "+loose add line".data = ParseState.init ∧
    parseStep ⟨[], some ⟨"f".data, []⟩, some ⟨1, 1, []⟩, 1, 1⟩
        "garbage".data =
      ⟨[], some ⟨"f".data, []⟩, some ⟨1, 1, []⟩, 1, 1⟩ ∧
    parseLines ["@@ -1,1 +1,1 @@".data, "garbage".data, "-x".data] =
      parseLines ["@@ -1,1 +1,1 @@".data, "-x".data] := by
  refine ⟨?_, ?_, ?_⟩
  · exact c8_parse_tolerant.1 ParseState.init "+loose add line".data
      (by decide) (by decide) rfl
  · exact c8_parse_tolerant.2.1 _ "garbage".data (by decide) (by decide)
      (by decide) (by decide) (by decide) (by decide)
  · exact c8_parse_tolerant.2.2 ["@@ -1,1 +1,1 @@".data] ["-x".data]
      "garbage".data (by decide) (by decide) (by decide) (by decide)
      (by decide) (by decide)

/-- The commit time the git oracle reports for a commit id. -/
def commitTimeGit (o : GitOracle) (cid : String) : Nat :=
  ((o.findCommit cid).map (·.time)).getD 0

/-- The commit time the jj oracle reports for a commit id. -/
def commitTimeJj (o : JjOracle) (cid : String) : Nat :=
  ((o.resolveEval cid).map (·.time)).getD 0

/-- Every commit kept by the git revwalk loop has a non-empty (raw)
changed-file list, and the kept ids form a subsequence of the walk. -/
theorem gitCommitsLoop_spec (o : GitOracle) :
    ∀ (walk : List String) (l : List StackedCommitInfo),
      gitCommitsLoop o walk = .ok l →
      (∀ c ∈ l, ∃ fs, (gitGetChangedFiles o c.commitId).1 = .ok fs ∧
        fs ≠ []) ∧
      (l.map (·.commitId)).Sublist walk := by
  intro walk
  induction walk with
  | nil =>
    intro l h
    simp [gitCommitsLoop] at h
    subst h
    exact ⟨by simp, by simp⟩
  | cons oid rest ih =>
    intro l h
    unfold gitCommitsLoop at h
    cases hfind : o.findCommit oid with
    | none => simp only [hfind] at h; exact absurd h (by simp)
    | some commit =>
      simp only [hfind] at h
      cases hrest : gitCommitsLoop o rest with
      | error e => simp only [hrest] at h; exact absurd h (by simp)
      | ok tail =>
        simp only [hrest] at h
        obtain ⟨htail, hsub⟩ := ih tail hrest
        cases hkeep : (gitGetChangedFiles o oid).1 with
        | error e =>
          simp only [hkeep] at h
          simp at h
          subst h
          exact ⟨htail, hsub.cons oid⟩
        | ok fs =>
          simp only [hkeep] at h
          by_cases hfs : fs.isEmpty
          · simp [hfs] at h
            subst h
            exact ⟨htail, hsub.cons oid⟩
          · simp [hfs] at h
            subst h
            refine ⟨?_, ?_⟩
            · intro c hc
              rcases List.mem_cons.mp hc with hc | hc
              · subst hc
                exact ⟨fs, hkeep, by
                  intro hnil
                  exact hfs (by simp [hnil])⟩
              · exact htail c hc
            · simpa using hsub.cons₂ oid

/-- Every commit kept by the jj revset loop has a non-empty (filtered)
changed-file list; with an oracle on which a commit id resolves to itself,
the kept ids form a subsequence of the walk. -/
theorem jjCommitsLoop_spec (o : JjOracle) :
    ∀ (walk : List String) (l : List StackedCommitInfo),
      jjCommitsLoop o walk = .ok l →
      (∀ c ∈ l, ∃ fs, (jjGetChangedFiles o c.commitId).1 = .ok fs ∧
        fs ≠ []) ∧
      ((∀ oid rec, o.resolveEval oid = some rec → rec.id = oid) →
        (l.map (·.commitId)).Sublist walk) := by
  intro walk
  induction walk with
  | nil =>
    intro l h
    simp [jjCommitsLoop] at h
    subst h
    exact ⟨by simp, fun _ => by simp⟩
  | cons oid rest ih =>
    intro l h
    unfold jjCommitsLoop at h
    cases hres : o.resolveEval oid with
    | none => simp only [hres] at h; exact absurd h (by simp)
    | some commit =>
      simp only [hres] at h
      cases hfs : (jjGetChangedFiles o commit.id).1 with
      | error e => simp only [hfs] at h; exact absurd h (by simp)
      | ok changedFiles =>
        simp only [hfs] at h
        cases hrest : jjCommitsLoop o rest with
        | error e => simp only [hrest] at h; exact absurd h (by simp)
        | ok tail =>
          simp only [hrest] at h
          obtain ⟨htail, hsub⟩ := ih tail hrest
          by_cases hempty : changedFiles.isEmpty
          · simp [hempty] at h
            subst h
            exact ⟨htail, fun hco => (hsub hco).cons oid⟩
          · simp [hempty] at h
            subst h
            refine ⟨?_, ?_⟩
            · intro c hc
              rcases List.mem_cons.mp hc with hc | hc
              · subst hc
                exact ⟨changedFiles, hfs, by
                  intro hnil
                  exact hempty (by simp [hnil])⟩
              · exact htail c hc
            · intro hco
              have hid : commit.id = oid := hco oid commit hres
              simpa [hid] using (hsub hco).cons₂ oid

/-- C7 (amended): `get_commits_in_range` never includes a commit with an
empty changed-file list as computed by that backend's own
`get_changed_files` — exclusion-filtered for jj, but unfiltered for git
(see the counterexample) — and both backends return commits oldest-first
(commit times are ascending whenever the native walk is newest-first). -/
theorem c7_commits_in_range :
    (∀ (o : JjOracle) (fromRef toRef : String)
        (commits : List StackedCommitInfo),
      (jjGetCommitsInRange o fromRef toRef).1 = .ok commits →
        ∀ c ∈ commits, ∃ fs, (jjGetChangedFiles o c.commitId).1 = .ok fs ∧
          fs ≠ []) ∧
    (∀ (o : GitOracle) (fromRef toRef : String)
        (commits : List StackedCommitInfo),
      (gitGetCommitsInRange o fromRef toRef).1 = .ok commits →
        ∀ c ∈ commits, ∃ fs, (gitGetChangedFiles o c.commitId).1 = .ok fs ∧
          fs ≠ []) ∧
    (∀ (o : GitOracle) (fromRef toRef : String)
        (fromCommit toCommit : GitCommitRec)
        (commits : List StackedCommitInfo),
      o.revparse (trimStr fromRef) = some fromCommit →
      o.revparse (trimStr toRef) = some toCommit →
      ((o.revwalk toCommit.id fromCommit.id).map (commitTimeGit o)).Pairwise
        (· ≥ ·) →
      (gitGetCommitsInRange o fromRef toRef).1 = .ok commits →
        (commits.map (fun c => commitTimeGit o c.commitId)).Pairwise
          (· ≤ ·)) ∧
    (∀ (o : JjOracle) (fromRef toRef : String)
        (commits : List StackedCommitInfo),
      (∀ oid rec, o.resolveEval oid = some rec → rec.id = oid) →
      ((o.rangeWalk ("(" ++ trimStr fromRef ++ "::" ++ trimStr toRef ++
          ") ~ (" ++ trimStr fromRef ++ ")")).map (commitTimeJj o)).Pairwise
        (· ≥ ·) →
      (jjGetCommitsInRange o fromRef toRef).1 = .ok commits →
        (commits.map (fun c => commitTimeJj o c.commitId)).Pairwise
          (· ≤ ·)) := by
  have hjjok : ∀ (o : JjOracle) (fromRef toRef : String)
      (commits : List StackedCommitInfo),
      (jjGetCommitsInRange o fromRef toRef).1 = .ok commits →
      ∃ l, jjCommitsLoop o (o.rangeWalk ("(" ++ trimStr fromRef ++ "::" ++
          trimStr toRef ++ ") ~ (" ++ trimStr fromRef ++ ")")) = .ok l ∧
        commits = l.reverse := by
    intro o fromRef toRef commits h
    unfold jjGetCommitsInRange at h
    dsimp only at h
    cases hp : o.parse ("(" ++ trimStr fromRef ++ "::" ++ trimStr toRef ++
        ") ~ (" ++ trimStr fromRef ++ ")") with
    | error e =>
      simp only [hp] at h
      rcases hg : detect_git_syntax (trimStr fromRef) with _ | s1 <;>
        simp only [hg] at h
      · rcases hg2 : detect_git_syntax (trimStr toRef) with _ | s2 <;>
          simp only [hg2] at h <;> simp at h
      · simp at h
    | ok u =>
      simp only [hp] at h
      cases hloop : jjCommitsLoop o (o.rangeWalk ("(" ++ trimStr fromRef ++
          "::" ++ trimStr toRef ++ ") ~ (" ++ trimStr fromRef ++ ")")) with
      | error e => simp only [hloop] at h; simp at h
      | ok l =>
        simp only [hloop] at h
        simp at h
        exact ⟨l, rfl, h.symm⟩
  have hgitok : ∀ (o : GitOracle) (fromRef toRef : String)
      (commits : List StackedCommitInfo),
      (gitGetCommitsInRange o fromRef toRef).1 = .ok commits →
      ∃ fromCommit toCommit l,
        o.revparse (trimStr fromRef) = some fromCommit ∧
        o.revparse (trimStr toRef) = some toCommit ∧
        gitCommitsLoop o (o.revwalk toCommit.id fromCommit.id) = .ok l ∧
        commits = l.reverse := by
    intro o fromRef toRef commits h
    unfold gitGetCommitsInRange at h
    dsimp only at h
    cases hv1 : validate_ref_format (trimStr fromRef) with
    | error e => simp only [hv1] at h; simp at h
    | ok u1 =>
      simp only [hv1] at h
      cases hv2 : validate_ref_format (trimStr toRef) with
      | error e => simp only [hv2] at h; simp at h
      | ok u2 =>
        simp only [hv2] at h
        cases hp1 : o.revparse (trimStr fromRef) with
        | none => simp only [hp1] at h; simp at h
        | some fromCommit =>
          simp only [hp1] at h
          cases hp2 : o.revparse (trimStr toRef) with
          | none => simp only [hp2] at h; simp at h
          | some toCommit =>
            simp only [hp2] at h
            cases hloop : gitCommitsLoop o
                (o.revwalk toCommit.id fromCommit.id) with
            | error e => simp only [hloop] at h; simp at h
            | ok l =>
              simp only [hloop] at h
              simp at h
              exact ⟨fromCommit, toCommit, l, rfl, rfl, hloop, h.symm⟩
  refine ⟨?_, ?_, ?_, ?_⟩
  · intro o fromRef toRef commits h c hc
    obtain ⟨l, hloop, hrev⟩ := hjjok o fromRef toRef commits h
    exact (jjCommitsLoop_spec o _ l hloop).1 c
      (by rw [hrev] at hc; exact List.mem_reverse.mp hc)
  · intro o fromRef toRef commits h c hc
    obtain ⟨fc, tc, l, _, _, hloop, hrev⟩ := hgitok o fromRef toRef commits h
    exact (gitCommitsLoop_spec o _ l hloop).1 c
      (by rw [hrev] at hc; exact List.mem_reverse.mp hc)
  · intro o fromRef toRef fromCommit toCommit commits hf ht hw h
    obtain ⟨fc, tc, l, hf', ht', hloop, hrev⟩ := hgitok o fromRef toRef commits h
    rw [hf'] at hf
    rw [ht'] at ht
    cases hf
    cases ht
    have hsub := (gitCommitsLoop_spec o _ l hloop).2
    have hsubmap : ((l.map (·.commitId)).map (commitTimeGit o)).Sublist
        ((o.revwalk toCommit.id fromCommit.id).map (commitTimeGit o)) :=
      hsub.map (commitTimeGit o)
    have hpw : ((l.map (·.commitId)).map (commitTimeGit o)).Pairwise
        (· ≥ ·) := hw.sublist hsubmap
    rw [hrev]
    rw [show (l.reverse.map fun c => commitTimeGit o c.commitId) =
        ((l.map (·.commitId)).map (commitTimeGit o)).reverse by
      simp [Function.comp]]
    rw [List.pairwise_reverse]
    exact hpw.imp (fun h => h)
  · intro o fromRef toRef commits hco hw h
    obtain ⟨l, hloop, hrev⟩ := hjjok o fromRef toRef commits h
    have hsub := (jjCommitsLoop_spec o _ l hloop).2 hco
    have hsubmap := hsub.map (commitTimeJj o)
    have hpw : ((l.map (·.commitId)).map (commitTimeJj o)).Pairwise
        (· ≥ ·) := hw.sublist hsubmap
    rw [hrev]
    rw [show (l.reverse.map fun c => commitTimeJj o c.commitId) =
        ((l.map (·.commitId)).map (commitTimeJj o)).reverse by
      simp [Function.comp]]
    rw [List.pairwise_reverse]
    exact hpw.imp (fun h => h)

/-- A git oracle with a two-commit newest-first walk. -/
def gitWalkOracle : GitOracle :=
  { revparse := fun r =>
      if r = "new" then some ⟨"bbb", "second", 9, 1,
        [⟨some "b.rs", some "b.rs"⟩]⟩
      else some ⟨"aaa", "first", 4, 1, [⟨some "a.rs", some "a.rs"⟩]⟩
    rangeDeltas := fun _ _ => []
    revwalk := fun _ _ => ["bbb", "aaa"]
    findCommit := fun c =>
      if c = "bbb" then some ⟨"bbb", "second", 9, 1,
        [⟨some "b.rs", some "b.rs"⟩]⟩
      else some ⟨"aaa", "first", 4, 1, [⟨some "a.rs", some "a.rs"⟩]⟩ }

/-- C7 witness: the amended range properties evaluated on a concrete
two-commit walk (newest first, times 9 then 4), yielding an ascending
oldest-first result. -/
theorem c7_commits_in_range_witness :
    ([⟨"aaa", "aaa", none, "first"⟩,
      ⟨"bbb", "bbb", none, "second"⟩] : List StackedCommitInfo).map
        (fun c => commitTimeGit gitWalkOracle c.commitId) = [4, 9] ∧
    (([⟨"aaa", "aaa", none, "first"⟩,
       ⟨"bbb", "bbb", none, "second"⟩] : List StackedCommitInfo).map
        (fun c => commitTimeGit gitWalkOracle c.commitId)).Pairwise
      (· ≤ ·) := by
  constructor
  · rfl
  · exact c7_commits_in_range.2.2.1 gitWalkOracle "old" "new"
      ⟨"aaa", "first", 4, 1, [⟨some "a.rs", some "a.rs"⟩]⟩
      ⟨"bbb", "second", 9, 1, [⟨some "b.rs", some "b.rs"⟩]⟩
      [⟨"aaa", "aaa", none, "first"⟩, ⟨"bbb", "bbb", none, "second"⟩]
      rfl rfl (by decide) rfl

/-- A git oracle whose walk contains one commit touching only
`Cargo.lock`. -/
def gitLockWalkOracle : GitOracle :=
  { revparse := fun _ =>
      some ⟨"abc123", "msg", 5, 1, [⟨some "Cargo.lock", some "Cargo.lock"⟩]⟩
    rangeDeltas := fun _ _ => []
    revwalk := fun _ _ => ["abc123"]
    findCommit := fun _ =>
      some ⟨"abc123", "msg", 5, 1, [⟨some "Cargo.lock", some "Cargo.lock"⟩]⟩ }

/-- C7 counterexample: the git backend includes a commit whose changed-file
list after exclusion filtering is empty (its only change is `Cargo.lock`),
because the emptiness test uses the unfiltered list. -/
theorem c7_git_excluded_commit_counterexample :
    (gitGetCommitsInRange gitLockWalkOracle "A" "B").1 =
      .ok [⟨"abc123", "abc123", none, "msg"⟩] ∧
    (gitGetChangedFiles gitLockWalkOracle "abc123").1 = .ok ["Cargo.lock"] ∧
    (["Cargo.lock"].filter (fun p => ! should_exclude_path p)) = [] := by
  refine ⟨rfl, rfl, by decide⟩

instance : IsTotal SnapshotFile byPath :=
  ⟨fun a b => le_total a.path b.path⟩

instance : IsTrans SnapshotFile byPath :=
  ⟨fun _ _ _ h1 h2 => le_trans h1 h2⟩

/-- C10: in every `GitSnapshot` returned by `get_git_snapshot_for_path`,
each of the three bucket lists (unstaged, staged, untracked) is sorted in
ascending lexicographic order of path. -/
theorem c10_snapshot_buckets_sorted (repoRoot branch : String)
    (entries : List (String × StatusFlags)) :
    List.Sorted byPath (get_git_snapshot repoRoot branch entries).unstaged ∧
      List.Sorted byPath (get_git_snapshot repoRoot branch entries).staged ∧
      List.Sorted byPath (get_git_snapshot repoRoot branch entries).untracked := by
  obtain ⟨u, s, t⟩ := entries.foldl snapshotStep ([], [], [])
  refine ⟨?_, ?_, ?_⟩ <;>
    simp only [get_git_snapshot] <;>
    exact List.sorted_insertionSort byPath _

/-- C4 counterexample: a path flagged `INDEX_MODIFIED | WT_DELETED` is
labeled `"deleted"` in the staged bucket (the label is computed from the
combined flag set), not `"modified"` as the claim states. -/
theorem c4_combined_label_counterexample :
    (get_git_snapshot "" ""
        [("f", { indexModified := true, wtDeleted := true })]).staged =
      [⟨"f", "deleted"⟩] ∧
    (get_git_snapshot "" ""
        [("f", { indexModified := true, wtDeleted := true })]).unstaged =
      [⟨"f", "deleted"⟩] ∧
    ("deleted" : String) ≠ "modified" := by
  refine ⟨rfl, rfl, by decide⟩

/-- C4 (amended): status classification is a pure function of the per-path
flag set, but a single label is computed from the combined flag set and
used for both buckets: `INDEX_NEW` only → "added" in the staged bucket;
`WT_NEW` with no index flags → only "untracked"; `INDEX_MODIFIED` together
with `WT_DELETED` → "deleted" in both the staged and unstaged buckets; the
label precedence is conflicted ("unmerged"), then added, deleted, renamed,
type-changed, modified, first match winning. -/
theorem c4_status_classification :
    (∀ s : StatusFlags, s.conflicted = true → status_label s = "unmerged") ∧
    (∀ s : StatusFlags, s.conflicted = false →
      (s.indexNew || s.wtNew) = true → status_label s = "added") ∧
    (∀ s : StatusFlags, s.conflicted = false →
      (s.indexNew || s.wtNew) = false →
      (s.indexDeleted || s.wtDeleted) = true → status_label s = "deleted") ∧
    (∀ s : StatusFlags, s.conflicted = false →
      (s.indexNew || s.wtNew) = false →
      (s.indexDeleted || s.wtDeleted) = false →
      (s.indexRenamed || s.wtRenamed) = true → status_label s = "renamed") ∧
    (∀ s : StatusFlags, s.conflicted = false →
      (s.indexNew || s.wtNew) = false →
      (s.indexDeleted || s.wtDeleted) = false →
      (s.indexRenamed || s.wtRenamed) = false →
      (s.indexTypechange || s.wtTypechange) = true →
      status_label s = "type-changed") ∧
    (∀ s : StatusFlags, s.conflicted = false →
      (s.indexNew || s.wtNew) = false →
      (s.indexDeleted || s.wtDeleted) = false →
      (s.indexRenamed || s.wtRenamed) = false →
      (s.indexTypechange || s.wtTypechange) = false →
      status_label s = "modified") ∧
    (∀ p : String, get_git_snapshot "" "" [(p, { indexNew := true })] =
      ⟨"", "", [], [⟨p, "added"⟩], []⟩) ∧
    (∀ p : String, get_git_snapshot "" "" [(p, { wtNew := true })] =
      ⟨"", "", [], [], [⟨p, "untracked"⟩]⟩) ∧
    (∀ p : String,
      (get_git_snapshot "" ""
          [(p, { indexModified := true, wtDeleted := true })]).staged =
        [⟨p, "deleted"⟩] ∧
      (get_git_snapshot "" ""
          [(p, { indexModified := true, wtDeleted := true })]).unstaged =
        [⟨p, "deleted"⟩]) := by
  refine ⟨?_, ?_, ?_, ?_, ?_, ?_, ?_, ?_, ?_⟩
  · intro s h; simp [status_label, h]
  · intro s h1 h2; simp [status_label, h1, h2]
  · intro s h1 h2 h3; simp [status_label, h1, h2, h3]
  · intro s h1 h2 h3 h4; simp [status_label, h1, h2, h3, h4]
  · intro s h1 h2 h3 h4 h5; simp [status_label, h1, h2, h3, h4, h5]
  · intro s h1 h2 h3 h4 h5; simp [status_label, h1, h2, h3, h4, h5]
  · intro p
    simp [get_git_snapshot, snapshotStep, has_index_changes,
      has_worktree_changes, status_label, List.insertionSort,
      List.orderedInsert]
  · intro p
    simp [get_git_snapshot, snapshotStep, has_index_changes,
      has_worktree_changes, List.insertionSort, List.orderedInsert]
  · intro p
    constructor <;>
      simp [get_git_snapshot, snapshotStep, has_index_changes,
        has_worktree_changes, status_label, List.insertionSort,
        List.orderedInsert]

/-- C4 witness: the amended classification evaluated at concrete flag
sets. -/
theorem c4_status_classification_witness :
    status_label { conflicted := true, indexNew := true } = "unmerged" ∧
    status_label { indexNew := true } = "added" ∧
    status_label { indexModified := true, wtDeleted := true } = "deleted" ∧
    (get_git_snapshot "" ""
        [("f", { indexModified := true, wtDeleted := true })]).staged =
      [⟨"f", "deleted"⟩] :=
  ⟨c4_status_classification.1 _ rfl,
   c4_status_classification.2.1 _ rfl rfl,
   c4_status_classification.2.2.1 _ rfl rfl rfl,
   (c4_status_classification.2.2.2.2.2.2.2.2 "f").1⟩

/-- C6: every file-scoped mutating operation and file-version query rejects
an empty path, an absolute path, or a path containing a `..` component with
a validation error, and in the rejection case returns with the repository
state unchanged (the backend action is never run). -/
theorem c6_path_validation {σ : Type}
    (stageAction unstageAction : σ → σ × Except VcsError Unit)
    (discardAction : DiffBucket → σ → σ × Except VcsError Unit)
    (versionsAction : DiffBucket → σ → σ × Except VcsError FileVersions)
    (commitVersionsAction : σ → σ × Except VcsError FileVersions)
    (st : σ) (relPath : String) (bucket : DiffBucket) (prev : Option String)
    (hbad : relPath = "" ∨ relPath.data.head? = some '/' ∨
      (pathComponents relPath).contains "..") :
    ∃ msg,
      validate_repo_relative_path relPath = .error (.Other msg) ∧
      stage_file_for_path stageAction st relPath = (st, .error (.Other msg)) ∧
      unstage_file_for_path unstageAction st relPath =
        (st, .error (.Other msg)) ∧
      discard_file_for_path discardAction st relPath bucket =
        (st, .error (.Other msg)) ∧
      get_file_versions_for_path versionsAction st relPath bucket =
        (st, .error (.Other msg)) ∧
      get_commit_file_versions_for_path commitVersionsAction st relPath prev =
        (st, .error (.Other msg)) := by
  have hval : ∃ msg, validate_repo_relative_path relPath =
      .error (.Other msg) := by
    unfold validate_repo_relative_path
    by_cases h1 : relPath = ""
    · exact ⟨"path is empty", by simp [h1]⟩
    · by_cases h2 : relPath.data.head? = some '/'
      · exact ⟨"path must be repository-relative", by simp [h1, h2]⟩
      · have h3 : (".." : String) ∈ pathComponents relPath := by
          rcases hbad with h | h | h
          · exact absurd h h1
          · exact absurd h h2
          · simpa using h
        exact ⟨"path cannot contain '..'", by simp [h1, h2, h3]⟩
  obtain ⟨msg, hmsg⟩ := hval
  refine ⟨msg, hmsg, ?_, ?_, ?_, ?_, ?_⟩ <;>
    simp [stage_file_for_path, unstage_file_for_path, discard_file_for_path,
      get_file_versions_for_path, get_commit_file_versions_for_path, hmsg]

/-- C6 witness: the validation rejection evaluated at the concrete path
`../x` with a concrete (never invoked) backend action. -/
theorem c6_path_validation_witness :
    ∃ msg,
      validate_repo_relative_path "../x" = .error (.Other msg) ∧
      stage_file_for_path (fun (u : Unit) => (u, .ok ())) () "../x" =
        ((), .error (.Other msg)) ∧
      unstage_file_for_path (fun (u : Unit) => (u, .ok ())) () "../x" =
        ((), .error (.Other msg)) ∧
      discard_file_for_path (fun _ (u : Unit) => (u, .ok ())) () "../x"
        .staged = ((), .error (.Other msg)) ∧
      get_file_versions_for_path
        (fun _ (u : Unit) => (u, .ok ⟨none, none⟩)) () "../x" .staged =
        ((), .error (.Other msg)) ∧
      get_commit_file_versions_for_path
        (fun (u : Unit) => (u, .ok ⟨none, none⟩)) () "../x" none =
        ((), .error (.Other msg)) :=
  c6_path_validation _ _ _ _ _ () "../x" .staged none (by decide)

end OW
